import Mathlib

/-
Shallow embedding of the WebSocket connection hub of the messenger backend
(internal/websocket/hub.go and the client actor in the same package).

Modelling conventions:
* A `Client` pointer is modelled by an opaque identifier `ClientId := Nat`.
* A Go map is modelled by an association list whose keys are unique in every
  reachable state; map iteration with deletion of the current key visits
  exactly the original key set, so the broadcast loops are folds over a
  snapshot of the key list.
* A client's buffered channel `send chan []byte` is modelled by its buffer
  contents (`queue : List Msg`) together with its capacity (`cap`), a
  `closed` flag, and two instrumentation fields: `closeCount` counts how
  often `close` has been executed on the channel (Go panics when it exceeds
  one) and `sendAfterClose` records that a send was attempted on a closed
  channel (which panics in Go).  A non-blocking `select`-send succeeds iff
  the channel is open and the buffer is not full.
* `BroadcastToUser` iterates over a snapshot of the user's connection slice
  while `removeUserConnection` mutates the shared backing array in place
  (`append(connections[:i], connections[i+1:]...)`), so removals shift the
  later elements left underneath the iteration.  The model keeps the
  backing array and the logical length explicitly to stay faithful to that
  aliasing.
-/

abbrev ClientId := Nat

/-- Wire messages carried on a client's outbound queue.  Broadcast payloads
are opaque bytes; the locally generated envelopes (keepalive ping, pong
reply, error reply, typing notification) are kept structured, standing for
their JSON serializations. -/
inductive Msg where
  | payload (s : String)
  | ping
  | pong (ts : Nat)
  | error (message : String) (ts : Nat)
  | userTyping (userId username roomId : String) (channelId : Option String)
      (isTyping : Bool) (ts : Nat)
deriving DecidableEq

/-- Per-client state: the fields of `Client` that the hub and the actor
mutate (user identity, joined-room set, and the outbound channel). -/
structure ClientState where
  userId : String
  username : String
  rooms : List String
  queue : List Msg
  cap : Nat
  closed : Bool
  closeCount : Nat
  sendAfterClose : Bool
deriving DecidableEq

/-- Hub state: registered client set, room index, user-connection index
(`hub.go` fields `clients`, `rooms`, `userConnections`), plus the state of
every client object. -/
structure HubState where
  clients : List ClientId
  rooms : List (String × List ClientId)
  userConns : List (String × List ClientId)
  cs : ClientId → ClientState

/- ------------------------------------------------------------------ -/
/- Association-list helpers standing for Go map operations.            -/
/- ------------------------------------------------------------------ -/

def alookup {β : Type} : List (String × β) → String → Option β
  | [], _ => none
  | (k, v) :: t, k0 => if k = k0 then some v else alookup t k0

def aset {β : Type} : List (String × β) → String → β → List (String × β)
  | [], k0, v0 => [(k0, v0)]
  | (k, v) :: t, k0, v0 => if k = k0 then (k0, v0) :: t else (k, v) :: aset t k0 v0

def aerase {β : Type} : List (String × β) → String → List (String × β)
  | [], _ => []
  | (k, v) :: t, k0 => if k = k0 then t else (k, v) :: aerase t k0

/-- Insert into a Go map key set: a no-op when the key is already present. -/
def insertIfAbsent {α : Type} [DecidableEq α] (x : α) (l : List α) : List α :=
  if x ∈ l then l else l ++ [x]

/- ------------------------------------------------------------------ -/
/- The outbound channel primitives.                                    -/
/- ------------------------------------------------------------------ -/

/-- Non-blocking send `select { case ch <- m: ...; default: ... }`.
Returns the new channel state and whether the send case was taken.  A send
on a closed channel is always "ready" in Go and panics when executed; the
model records that through `sendAfterClose`. -/
def tryEnqueue (st : ClientState) (m : Msg) : ClientState × Bool :=
  if st.closed then ({ st with sendAfterClose := true }, true)
  else if st.queue.length < st.cap then ({ st with queue := st.queue ++ [m] }, true)
  else (st, false)

/-- Execution of `close(client.send)`. -/
def closeChan (st : ClientState) : ClientState :=
  { st with closed := true, closeCount := st.closeCount + 1 }

/- ------------------------------------------------------------------ -/
/- Hub operations (hub.go).                                            -/
/- ------------------------------------------------------------------ -/

/-- `registerClient`: add to the `clients` map, and append to the user's
connection slice when the user id is non-empty. -/
def registerClient (s : HubState) (c : ClientId) : HubState :=
  let s1 : HubState := { s with clients := insertIfAbsent c s.clients }
  let uid := (s.cs c).userId
  if uid = "" then s1
  else { s1 with userConns := aset s1.userConns uid ((alookup s1.userConns uid).getD [] ++ [c]) }

/-- `removeUserConnection`: remove the first occurrence of the client from
the user's connection slice and drop the map entry when it becomes empty. -/
def removeUC (uc : List (String × List ClientId)) (uid : String) (c : ClientId) :
    List (String × List ClientId) :=
  match alookup uc uid with
  | none => uc
  | some conns =>
    let conns' := conns.erase c
    if conns'.length = 0 then aerase uc uid else aset uc uid conns'

/-- One iteration of `unregisterClient`'s room-cleanup loop: remove the
client from the member set of room `r`, dropping the room if it empties. -/
def unregStep (c : ClientId) (acc : HubState) (r : String) : HubState :=
  match alookup acc.rooms r with
  | none => acc
  | some mem =>
    let mem' := mem.erase c
    if mem' = [] then { acc with rooms := aerase acc.rooms r }
    else { acc with rooms := aset acc.rooms r mem' }

/-- `unregisterClient`: close the queue and drop the client from the global
set when it is currently registered, then remove it from every room listed
in `client.rooms` (the client's own room set is NOT cleared), then remove it
from the user index. -/
def unregisterClient (s : HubState) (c : ClientId) : HubState :=
  let s1 : HubState :=
    if c ∈ s.clients then
      { s with clients := s.clients.erase c,
               cs := Function.update s.cs c (closeChan (s.cs c)) }
    else s
  let s2 : HubState := (s1.cs c).rooms.foldl (unregStep c) s1
  if (s2.cs c).userId = "" then s2
  else { s2 with userConns := removeUC s2.userConns (s2.cs c).userId c }

/-- `JoinRoom`: create the room on first join, add the client to the room's
member set and the room to the client's room set. -/
def joinRoom (s : HubState) (c : ClientId) (r : String) : HubState :=
  let mem := (alookup s.rooms r).getD []
  { s with rooms := aset s.rooms r (insertIfAbsent c mem),
           cs := Function.update s.cs c
             ({ s.cs c with rooms := insertIfAbsent r (s.cs c).rooms }) }

/-- `LeaveRoom`: remove the client from the room's member set, dropping the
room when it empties, and remove the room from the client's room set. -/
def leaveRoom (s : HubState) (c : ClientId) (r : String) : HubState :=
  let s1 : HubState :=
    match alookup s.rooms r with
    | none => s
    | some mem =>
      let mem' := mem.erase c
      if mem' = [] then { s with rooms := aerase s.rooms r }
      else { s with rooms := aset s.rooms r mem' }
  let st2 : ClientState := { s1.cs c with rooms := (s1.cs c).rooms.erase r }
  { s1 with cs := Function.update s1.cs c st2 }

/-- One iteration of the `broadcastToAll` / `pingClients` loop: non-blocking
send; on a full queue close it and delete the client from the global set. -/
def ballStep (m : Msg) (acc : HubState) (c : ClientId) : HubState :=
  let p := tryEnqueue (acc.cs c) m
  if p.2 then { acc with cs := Function.update acc.cs c p.1 }
  else { acc with cs := Function.update acc.cs c (closeChan (acc.cs c)),
                  clients := acc.clients.erase c }

/-- `broadcastToAll`: iterate the registered-client set (deleting the
current entry on a full queue, which in Go map iteration still visits every
originally present key exactly once). -/
def broadcastToAll (s : HubState) (m : Msg) : HubState :=
  s.clients.foldl (ballStep m) s

/-- `pingClients`: the keepalive tick; identical loop with the marshalled
ping envelope. -/
def pingClients (s : HubState) : HubState :=
  s.clients.foldl (ballStep Msg.ping) s

/-- One iteration of the `BroadcastToRoom` loop: non-blocking send; on a
full queue close it, delete the client from this room's member set, and
drop the room when it empties. -/
def broomStep (r : String) (m : Msg) (acc : HubState) (c : ClientId) : HubState :=
  let p := tryEnqueue (acc.cs c) m
  if p.2 then { acc with cs := Function.update acc.cs c p.1 }
  else
    let acc1 : HubState := { acc with cs := Function.update acc.cs c (closeChan (acc.cs c)) }
    match alookup acc1.rooms r with
    | none => acc1
    | some cur =>
      let cur' := cur.erase c
      if cur' = [] then { acc1 with rooms := aerase acc1.rooms r }
      else { acc1 with rooms := aset acc1.rooms r cur' }

/-- `BroadcastToRoom`. -/
def broadcastToRoom (s : HubState) (r : String) (m : Msg) : HubState :=
  match alookup s.rooms r with
  | none => s
  | some mem => mem.foldl (broomStep r m) s

/-- Accumulator of the `BroadcastToUser` loop: the shared backing array of
the user's connection slice, the logical length of the slice currently
stored in the map (0 once the entry has been deleted), and the client
states. -/
structure BtuAcc where
  backing : List ClientId
  len : Nat
  cs : ClientId → ClientState

/-- First index of `c` in a list. -/
def firstIdx (c : ClientId) : List ClientId → Option Nat
  | [] => none
  | x :: t => if x = c then some 0 else (firstIdx c t).map (· + 1)

/-- Effect of `append(connections[:j], connections[j+1:]...)` on the backing
array: elements `j+1 .. len-1` shift left one slot, the tail of the array
(from position `len-1` on) keeps its old contents. -/
def shiftRemove (l : List ClientId) (j len : Nat) : List ClientId :=
  l.take j ++ (l.drop (j + 1)).take (len - 1 - j) ++ l.drop (len - 1)

/-- One iteration of the `BroadcastToUser` loop, reading position `i` of the
backing array (Go `range` iterates the snapshot slice header while
`removeUserConnection` rewrites the shared array). -/
def btuStep (m : Msg) (acc : BtuAcc) (i : Nat) : BtuAcc :=
  let c := acc.backing.getD i 0
  let p := tryEnqueue (acc.cs c) m
  if p.2 then { acc with cs := Function.update acc.cs c p.1 }
  else
    match firstIdx c (acc.backing.take acc.len) with
    | none => acc
    | some j => { acc with backing := shiftRemove acc.backing j acc.len, len := acc.len - 1 }

/-- `BroadcastToUser`. -/
def broadcastToUser (s : HubState) (u : String) (m : Msg) : HubState :=
  match alookup s.userConns u with
  | none => s
  | some conns =>
    let n := conns.length
    let fin := (List.range n).foldl (btuStep m) ⟨conns, n, s.cs⟩
    let uc' :=
      if fin.len = n then s.userConns
      else if fin.len = 0 then aerase s.userConns u
      else aset s.userConns u (fin.backing.take fin.len)
    { s with userConns := uc', cs := fin.cs }

/- ------------------------------------------------------------------ -/
/- Read-only queries.                                                  -/
/- ------------------------------------------------------------------ -/

/-- `GetRoomClients` (the `RoomMembers` query). -/
def GetRoomClients (s : HubState) (r : String) : List ClientId :=
  (alookup s.rooms r).getD []

/-- `GetUserConnections`. -/
def GetUserConnections (s : HubState) (u : String) : List ClientId :=
  (alookup s.userConns u).getD []

/-- `IsUserOnline`: the entry exists and is non-empty. -/
def IsUserOnline (s : HubState) (u : String) : Bool :=
  match alookup s.userConns u with
  | some conns => decide (0 < conns.length)
  | none => false

/-- `GetOnlineUsers`: every key whose connection list is non-empty. -/
def GetOnlineUsers (s : HubState) : List String :=
  (s.userConns.filter (fun p => decide (0 < p.2.length))).map Prod.fst

/- ------------------------------------------------------------------ -/
/- Connection actor: locally generated replies and inbound dispatch.   -/
/- ------------------------------------------------------------------ -/

/-- `Client.SendMessage`: non-blocking send on the client's own queue; on
a full queue the queue is CLOSED (not merely dropped). -/
def SendMessage (s : HubState) (c : ClientId) (m : Msg) : HubState :=
  let p := tryEnqueue (s.cs c) m
  if p.2 then { s with cs := Function.update s.cs c p.1 }
  else { s with cs := Function.update s.cs c (closeChan (s.cs c)) }

/-- `Client.sendError`: wrap the message in an `error` envelope with the
current timestamp and send it through `SendMessage`. -/
def sendError (s : HubState) (c : ClientId) (message : String) (now : Nat) : HubState :=
  SendMessage s c (Msg.error message now)

/-- An inbound envelope: its `type` tag, and the decoded `data` payload
fields where relevant (`none` models a payload that fails to decode as the
request struct). -/
structure InEnv where
  type : String
  roomId : Option String
  channelId : Option String
deriving DecidableEq

/-- `Client.handleMessage`: dispatch on the envelope's type tag. -/
def handleMessage (s : HubState) (c : ClientId) (now : Nat) (e : InEnv) : HubState :=
  if e.type = "join_room" then
    match e.roomId with
    | some r => joinRoom s c r
    | none => sendError s c "Invalid join room request" now
  else if e.type = "leave_room" then
    match e.roomId with
    | some r => leaveRoom s c r
    | none => sendError s c "Invalid leave room request" now
  else if e.type = "typing" then
    match e.roomId with
    | some r => broadcastToRoom s r
        (Msg.userTyping (s.cs c).userId (s.cs c).username r e.channelId true now)
    | none => sendError s c "Invalid typing request" now
  else if e.type = "stop_typing" then
    match e.roomId with
    | some r => broadcastToRoom s r
        (Msg.userTyping (s.cs c).userId (s.cs c).username r e.channelId false now)
    | none => sendError s c "Invalid stop typing request" now
  else if e.type = "ping" then
    SendMessage s c (Msg.pong now)
  else
    sendError s c ("Unknown message type: " ++ e.type) now

/-- The inbound pump (`ReadPump`): successfully read frames are handled one
after another, each with its read timestamp. -/
def processFrames (s : HubState) (c : ClientId) : List (InEnv × Nat) → HubState
  | [] => s
  | (e, n) :: rest => processFrames (handleMessage s c n e) c rest

/- ------------------------------------------------------------------ -/
/- Hub operations as events, for statements over operation sequences.  -/
/- ------------------------------------------------------------------ -/

inductive HubOp where
  | register (c : ClientId)
  | unregister (c : ClientId)
  | join (c : ClientId) (r : String)
  | leave (c : ClientId) (r : String)
  | broadcastAll (m : Msg)
  | broadcastRoom (r : String) (m : Msg)
  | broadcastUser (u : String) (m : Msg)
  | keepalive
deriving DecidableEq

def applyOp (s : HubState) : HubOp → HubState
  | .register c => registerClient s c
  | .unregister c => unregisterClient s c
  | .join c r => joinRoom s c r
  | .leave c r => leaveRoom s c r
  | .broadcastAll m => broadcastToAll s m
  | .broadcastRoom r m => broadcastToRoom s r m
  | .broadcastUser u m => broadcastToUser s u m
  | .keepalive => pingClients s

def applyOps (s : HubState) (ops : List HubOp) : HubState :=
  ops.foldl applyOp s

/-- A freshly constructed client (`NewClient` followed by `SetUser`): empty
room set, empty open queue.  `NewClient` fixes the capacity at 256; the
model keeps it as the configured outbound queue capacity. -/
def freshClient (uid uname : String) (cap : Nat) : ClientState :=
  { userId := uid, username := uname, rooms := [], queue := [], cap := cap,
    closed := false, closeCount := 0, sendAfterClose := false }

/-- `NewHub`: empty indices. -/
def initHub (cs0 : ClientId → ClientState) : HubState :=
  { clients := [], rooms := [], userConns := [], cs := cs0 }

/-- A client that can legitimately be passed to `Register`: not currently
registered, appearing in no index, with a fresh room set and an open queue. -/
def Fresh (s : HubState) (c : ClientId) : Prop :=
  c ∉ s.clients ∧ (s.cs c).rooms = [] ∧ (s.cs c).closed = false ∧
  (∀ p ∈ s.rooms, c ∉ p.2) ∧ (∀ p ∈ s.userConns, c ∉ p.2)

instance (s : HubState) (c : ClientId) : Decidable (Fresh s c) := by
  unfold Fresh; infer_instance

/-- Side condition on a single operation: a `register` must register a
fresh client (each Go client object is registered once, right after
`NewClient`); every other operation is unconstrained. -/
def RegOK (s : HubState) : HubOp → Prop
  | .register c => Fresh s c
  | _ => True

instance (s : HubState) (op : HubOp) : Decidable (RegOK s op) := by
  cases op <;> simp only [RegOK] <;> infer_instance

/-- Well-formed continuation of a run: every operation is allowed, and each
`register` registers a fresh client. -/
def SeqOK (allowed : HubOp → Bool) : HubState → List HubOp → Prop
  | _, [] => True
  | s, op :: rest =>
    allowed op = true ∧ RegOK s op ∧ SeqOK allowed (applyOp s op) rest

instance instDecSeqOK (allowed : HubOp → Bool) :
    (s : HubState) → (ops : List HubOp) → Decidable (SeqOK allowed s ops)
  | _, [] => .isTrue trivial
  | s, op :: rest =>
    have h3 : Decidable (SeqOK allowed (applyOp s op) rest) :=
      instDecSeqOK allowed (applyOp s op) rest
    @instDecidableAnd _ _ inferInstance (@instDecidableAnd _ _ inferInstance h3)

/- ------------------------------------------------------------------ -/
/- Lemmas about the association-list helpers.                          -/
/- ------------------------------------------------------------------ -/

theorem alookup_aset_self {β : Type} (l : List (String × β)) (k : String) (v : β) :
    alookup (aset l k v) k = some v := by
  induction l with
  | nil => simp [aset, alookup]
  | cons p t ih =>
    obtain ⟨k1, v1⟩ := p
    by_cases h : k1 = k
    · subst h
      simp [aset, alookup]
    · simp [aset, alookup, h, ih]

theorem alookup_aset_ne {β : Type} (l : List (String × β)) (k k' : String) (v : β)
    (h : k' ≠ k) : alookup (aset l k v) k' = alookup l k' := by
  have h2 : k ≠ k' := fun hh => h hh.symm
  induction l with
  | nil => simp [aset, alookup, h2]
  | cons p t ih =>
    obtain ⟨k1, v1⟩ := p
    by_cases h1 : k1 = k
    · subst h1
      simp [aset, alookup, h2]
    · by_cases h3 : k1 = k'
      · subst h3
        simp [aset, alookup, h1]
      · simp [aset, alookup, h1, h3, ih]

theorem aset_aset {β : Type} (l : List (String × β)) (k : String) (v w : β) :
    aset (aset l k v) k w = aset l k w := by
  induction l with
  | nil => simp [aset]
  | cons p t ih =>
    obtain ⟨k1, v1⟩ := p
    by_cases h : k1 = k
    · subst h
      simp [aset]
    · simp [aset, h, ih]

theorem aset_self {β : Type} (l : List (String × β)) (k : String) (v : β)
    (h : alookup l k = some v) : aset l k v = l := by
  induction l with
  | nil => simp [alookup] at h
  | cons p t ih =>
    obtain ⟨k1, v1⟩ := p
    by_cases h1 : k1 = k
    · subst h1
      simp only [alookup, if_true, eq_self_iff_true, Option.some.injEq] at h
      simp [aset, h]
    · simp only [alookup, if_neg h1] at h
      simp [aset, h1, ih h]

theorem aerase_sublist {β : Type} (l : List (String × β)) (k : String) :
    (aerase l k).Sublist l := by
  induction l with
  | nil => simp [aerase]
  | cons p t ih =>
    obtain ⟨k1, v1⟩ := p
    by_cases h : k1 = k
    · subst h
      simp only [aerase, if_true, eq_self_iff_true]
      exact List.sublist_cons_self (k1, v1) t
    · simpa [aerase, h] using ih.cons₂ (k1, v1)

theorem mem_aerase {β : Type} {l : List (String × β)} {k : String} {p : String × β}
    (h : p ∈ aerase l k) : p ∈ l := (aerase_sublist l k).mem h

theorem alookup_aerase_ne {β : Type} (l : List (String × β)) (k k' : String)
    (h : k' ≠ k) : alookup (aerase l k) k' = alookup l k' := by
  have h2 : k ≠ k' := fun hh => h hh.symm
  induction l with
  | nil => simp [aerase]
  | cons p t ih =>
    obtain ⟨k1, v1⟩ := p
    by_cases h1 : k1 = k
    · subst h1
      simp [aerase, alookup, h2]
    · by_cases h3 : k1 = k'
      · subst h3
        simp [aerase, alookup, h1]
      · simp [aerase, alookup, h1, h3, ih]

theorem alookup_eq_none_iff {β : Type} (l : List (String × β)) (k : String) :
    alookup l k = none ↔ k ∉ l.map Prod.fst := by
  induction l with
  | nil => simp [alookup]
  | cons p t ih =>
    obtain ⟨k1, v1⟩ := p
    by_cases h1 : k1 = k
    · subst h1
      simp [alookup]
    · rw [alookup, if_neg h1, ih]
      simp only [List.map_cons, List.mem_cons, not_or]
      exact ⟨fun hk => ⟨fun hh => h1 hh.symm, hk⟩, fun hk => hk.2⟩

theorem alookup_aerase_self {β : Type} (l : List (String × β)) (k : String)
    (h : (l.map Prod.fst).Nodup) : alookup (aerase l k) k = none := by
  induction l with
  | nil => simp [aerase, alookup]
  | cons p t ih =>
    obtain ⟨k1, v1⟩ := p
    simp only [List.map_cons, List.nodup_cons] at h
    by_cases h1 : k1 = k
    · subst h1
      simp only [aerase, if_pos rfl]
      exact (alookup_eq_none_iff t k1).2 h.1
    · simp [aerase, alookup, h1, ih h.2]

theorem alookup_mem {β : Type} {l : List (String × β)} {k : String} {v : β}
    (h : alookup l k = some v) : (k, v) ∈ l := by
  induction l with
  | nil => simp [alookup] at h
  | cons p t ih =>
    obtain ⟨k1, v1⟩ := p
    by_cases h1 : k1 = k
    · subst h1
      simp only [alookup, if_true, eq_self_iff_true, Option.some.injEq] at h
      simp [h]
    · simp only [alookup, if_neg h1] at h
      exact List.mem_cons_of_mem _ (ih h)

theorem mem_aset {β : Type} {l : List (String × β)} {k : String} {v : β} {p : String × β}
    (h : p ∈ aset l k v) : p = (k, v) ∨ p ∈ l := by
  induction l with
  | nil => simpa [aset] using h
  | cons q t ih =>
    obtain ⟨k1, v1⟩ := q
    by_cases h1 : k1 = k
    · subst h1
      simp only [aset, if_true, eq_self_iff_true, List.mem_cons] at h
      rcases h with h | h
      · exact Or.inl h
      · exact Or.inr (List.mem_cons_of_mem _ h)
    · simp only [aset, if_neg h1, List.mem_cons] at h
      rcases h with h | h
      · exact Or.inr (List.mem_cons.2 (Or.inl h))
      · rcases ih h with h2 | h2
        · exact Or.inl h2
        · exact Or.inr (List.mem_cons_of_mem _ h2)

theorem mem_aset_nodup {β : Type} {l : List (String × β)} {k : String} {v : β}
    {p : String × β} (hnd : (l.map Prod.fst).Nodup) (h : p ∈ aset l k v) :
    p = (k, v) ∨ (p ∈ l ∧ p.1 ≠ k) := by
  induction l with
  | nil => simpa [aset] using h
  | cons q t ih =>
    obtain ⟨k1, v1⟩ := q
    simp only [List.map_cons, List.nodup_cons] at hnd
    by_cases h1 : k1 = k
    · subst h1
      simp only [aset, if_true, eq_self_iff_true, List.mem_cons] at h
      rcases h with h | h
      · exact Or.inl h
      · refine Or.inr ⟨List.mem_cons_of_mem _ h, ?_⟩
        intro hk
        exact hnd.1 (hk ▸ List.mem_map_of_mem Prod.fst h)
    · simp only [aset, if_neg h1, List.mem_cons] at h
      rcases h with h | h
      · subst h
        exact Or.inr ⟨List.mem_cons.2 (Or.inl rfl), h1⟩
      · rcases ih hnd.2 h with h2 | h2
        · exact Or.inl h2
        · exact Or.inr ⟨List.mem_cons_of_mem _ h2.1, h2.2⟩

theorem mem_aset_of_ne {β : Type} {l : List (String × β)} {k : String} {v : β}
    {p : String × β} (h : p ∈ l) (hne : p.1 ≠ k) : p ∈ aset l k v := by
  induction l with
  | nil => simp at h
  | cons q t ih =>
    obtain ⟨k1, v1⟩ := q
    by_cases h1 : k1 = k
    · subst h1
      simp only [aset, if_true, eq_self_iff_true, List.mem_cons]
      rcases List.mem_cons.1 h with h2 | h2
      · subst h2
        exact absurd rfl hne
      · exact Or.inr h2
    · simp only [aset, if_neg h1, List.mem_cons]
      rcases List.mem_cons.1 h with h2 | h2
      · exact Or.inl h2
      · exact Or.inr (ih h2)

theorem self_mem_aset {β : Type} (l : List (String × β)) (k : String) (v : β) :
    (k, v) ∈ aset l k v := by
  induction l with
  | nil => simp [aset]
  | cons q t ih =>
    obtain ⟨k1, v1⟩ := q
    by_cases h1 : k1 = k
    · subst h1
      simp [aset]
    · simp only [aset, if_neg h1, List.mem_cons]
      exact Or.inr ih

theorem mem_aerase_of_ne {β : Type} {l : List (String × β)} {k : String}
    {p : String × β} (h : p ∈ l) (hne : p.1 ≠ k) : p ∈ aerase l k := by
  induction l with
  | nil => simp at h
  | cons q t ih =>
    obtain ⟨k1, v1⟩ := q
    by_cases h1 : k1 = k
    · subst h1
      simp only [aerase, if_true, eq_self_iff_true]
      rcases List.mem_cons.1 h with h2 | h2
      · subst h2
        exact absurd rfl hne
      · exact h2
    · simp only [aerase, if_neg h1, List.mem_cons]
      rcases List.mem_cons.1 h with h2 | h2
      · exact Or.inl h2
      · exact Or.inr (ih h2)

theorem keys_aset_nodup {β : Type} (l : List (String × β)) (k : String) (v : β)
    (h : (l.map Prod.fst).Nodup) : ((aset l k v).map Prod.fst).Nodup := by
  induction l with
  | nil => simp [aset]
  | cons q t ih =>
    obtain ⟨k1, v1⟩ := q
    simp only [List.map_cons, List.nodup_cons] at h
    by_cases h1 : k1 = k
    · subst h1
      simpa [aset] using h
    · simp only [aset, if_neg h1, List.map_cons, List.nodup_cons]
      refine ⟨?_, ih h.2⟩
      intro hmem
      rcases List.mem_map.1 hmem with ⟨p, hp, hfst⟩
      rcases mem_aset hp with h2 | h2
      · subst h2
        exact h1 hfst.symm
      · exact h.1 (hfst ▸ List.mem_map_of_mem Prod.fst h2)

theorem keys_aerase_nodup {β : Type} (l : List (String × β)) (k : String)
    (h : (l.map Prod.fst).Nodup) : ((aerase l k).map Prod.fst).Nodup :=
  h.sublist ((aerase_sublist l k).map Prod.fst)

/- Lemmas about `insertIfAbsent`. -/

theorem mem_insertIfAbsent {α : Type} [DecidableEq α] {x y : α} {l : List α} :
    x ∈ insertIfAbsent y l ↔ x = y ∨ x ∈ l := by
  unfold insertIfAbsent
  split
  · rename_i hy
    constructor
    · exact Or.inr
    · rintro (rfl | h)
      · exact hy
      · exact h
  · simp [or_comm]

theorem self_mem_insertIfAbsent {α : Type} [DecidableEq α] (x : α) (l : List α) :
    x ∈ insertIfAbsent x l := mem_insertIfAbsent.2 (Or.inl rfl)

theorem nodup_insertIfAbsent {α : Type} [DecidableEq α] (x : α) {l : List α}
    (h : l.Nodup) : (insertIfAbsent x l).Nodup := by
  unfold insertIfAbsent
  split
  · exact h
  · rename_i hx
    refine List.Nodup.append h (List.nodup_singleton x) ?_
    intro a ha hax
    simp only [List.mem_singleton] at hax
    exact hx (hax ▸ ha)

theorem insertIfAbsent_of_mem {α : Type} [DecidableEq α] {x : α} {l : List α}
    (h : x ∈ l) : insertIfAbsent x l = l := by
  simp [insertIfAbsent, h]

/- A generic fold-invariant lemma. -/

theorem foldl_preserve {α β : Type} {f : β → α → β} {P : β → Prop}
    (h : ∀ b a, P b → P (f b a)) : ∀ (l : List α) (b : β), P b → P (l.foldl f b)
  | [], _, hb => hb
  | a :: t, b, hb => foldl_preserve h t (f b a) (h b a hb)

/- ------------------------------------------------------------------ -/
/- Channel primitive lemmas.                                           -/
/- ------------------------------------------------------------------ -/

theorem tryEnqueue_success (st : ClientState) (m : Msg) (h1 : st.closed = false)
    (h2 : st.queue.length < st.cap) :
    tryEnqueue st m = ({ st with queue := st.queue ++ [m] }, true) := by
  simp [tryEnqueue, h1, h2]

theorem tryEnqueue_fail (st : ClientState) (m : Msg) (h1 : st.closed = false)
    (h2 : st.cap ≤ st.queue.length) :
    tryEnqueue st m = (st, false) := by
  simp [tryEnqueue, h1, Nat.not_lt.2 h2]

/-- `tryEnqueue` never changes the identity fields, the room set, the
capacity, nor the closed state of the channel. -/
theorem tryEnqueue_meta (st : ClientState) (m : Msg) :
    (tryEnqueue st m).1.userId = st.userId ∧ (tryEnqueue st m).1.username = st.username ∧
    (tryEnqueue st m).1.rooms = st.rooms ∧ (tryEnqueue st m).1.cap = st.cap ∧
    (tryEnqueue st m).1.closed = st.closed ∧ (tryEnqueue st m).1.closeCount = st.closeCount := by
  unfold tryEnqueue
  split
  · simp
  · split <;> simp

theorem closeChan_meta (st : ClientState) :
    (closeChan st).userId = st.userId ∧ (closeChan st).username = st.username ∧
    (closeChan st).rooms = st.rooms ∧ (closeChan st).cap = st.cap ∧
    (closeChan st).queue = st.queue ∧ (closeChan st).sendAfterClose = st.sendAfterClose := by
  simp [closeChan]

/- ------------------------------------------------------------------ -/
/- Frame lemmas for the broadcast loop steps.                          -/
/- ------------------------------------------------------------------ -/

theorem ballStep_rooms (m : Msg) (acc : HubState) (c : ClientId) :
    (ballStep m acc c).rooms = acc.rooms := by
  unfold ballStep
  simp only []
  split <;> rfl

theorem ballStep_userConns (m : Msg) (acc : HubState) (c : ClientId) :
    (ballStep m acc c).userConns = acc.userConns := by
  unfold ballStep
  simp only []
  split <;> rfl

theorem ballStep_cs_ne (m : Msg) (acc : HubState) (c x : ClientId) (h : x ≠ c) :
    (ballStep m acc c).cs x = acc.cs x := by
  unfold ballStep
  simp only []
  split <;> simp [Function.update_noteq h]

theorem ballStep_cs_rooms (m : Msg) (acc : HubState) (c x : ClientId) :
    ((ballStep m acc c).cs x).rooms = (acc.cs x).rooms := by
  by_cases h : x = c
  · subst h
    unfold ballStep
    simp only []
    split <;> simp [(tryEnqueue_meta (acc.cs x) m).2.2.1, (closeChan_meta (acc.cs x)).2.2.1]
  · rw [ballStep_cs_ne m acc c x h]

theorem ballStep_cs_userId (m : Msg) (acc : HubState) (c x : ClientId) :
    ((ballStep m acc c).cs x).userId = (acc.cs x).userId := by
  by_cases h : x = c
  · subst h
    unfold ballStep
    simp only []
    split <;> simp [(tryEnqueue_meta (acc.cs x) m).1, (closeChan_meta (acc.cs x)).1]
  · rw [ballStep_cs_ne m acc c x h]

theorem ballStep_clients_sub (m : Msg) (acc : HubState) (c x : ClientId)
    (h : x ∈ (ballStep m acc c).clients) : x ∈ acc.clients := by
  unfold ballStep at h
  simp only [] at h
  split at h
  · exact h
  · exact List.mem_of_mem_erase h

theorem ballStep_clients_nodup (m : Msg) (acc : HubState) (c : ClientId)
    (h : acc.clients.Nodup) : (ballStep m acc c).clients.Nodup := by
  unfold ballStep
  simp only []
  split
  · exact h
  · exact h.erase c

theorem broomStep_clients (r : String) (m : Msg) (acc : HubState) (c : ClientId) :
    (broomStep r m acc c).clients = acc.clients := by
  unfold broomStep
  simp only []
  split
  · rfl
  · split
    · rfl
    · split <;> rfl

theorem broomStep_userConns (r : String) (m : Msg) (acc : HubState) (c : ClientId) :
    (broomStep r m acc c).userConns = acc.userConns := by
  unfold broomStep
  simp only []
  split
  · rfl
  · split
    · rfl
    · split <;> rfl

theorem broomStep_cs_ne (r : String) (m : Msg) (acc : HubState) (c x : ClientId)
    (h : x ≠ c) : (broomStep r m acc c).cs x = acc.cs x := by
  unfold broomStep
  simp only []
  split
  · simp [Function.update_noteq h]
  · split
    · simp [Function.update_noteq h]
    · split <;> simp [Function.update_noteq h]

theorem broomStep_cs_rooms (r : String) (m : Msg) (acc : HubState) (c x : ClientId) :
    ((broomStep r m acc c).cs x).rooms = (acc.cs x).rooms := by
  by_cases h : x = c
  · subst h
    unfold broomStep
    simp only []
    split
    · simp [(tryEnqueue_meta (acc.cs x) m).2.2.1]
    · split
      · simp [(closeChan_meta (acc.cs x)).2.2.1]
      · split <;> simp [(closeChan_meta (acc.cs x)).2.2.1]
  · rw [broomStep_cs_ne r m acc c x h]

theorem broomStep_cs_userId (r : String) (m : Msg) (acc : HubState) (c x : ClientId) :
    ((broomStep r m acc c).cs x).userId = (acc.cs x).userId := by
  by_cases h : x = c
  · subst h
    unfold broomStep
    simp only []
    split
    · simp [(tryEnqueue_meta (acc.cs x) m).1]
    · split
      · simp [(closeChan_meta (acc.cs x)).1]
      · split <;> simp [(closeChan_meta (acc.cs x)).1]
  · rw [broomStep_cs_ne r m acc c x h]

/-- `btuStep` never closes a queue and never touches the identity fields,
room set, capacity, closed flag nor close count of any client. -/
theorem btuStep_cs_fields (m : Msg) (acc : BtuAcc) (i : Nat) (x : ClientId) :
    ((btuStep m acc i).cs x).closed = (acc.cs x).closed ∧
    ((btuStep m acc i).cs x).closeCount = (acc.cs x).closeCount ∧
    ((btuStep m acc i).cs x).rooms = (acc.cs x).rooms ∧
    ((btuStep m acc i).cs x).userId = (acc.cs x).userId := by
  unfold btuStep
  simp only []
  split
  · by_cases h : x = acc.backing.getD i 0
    · rw [h]
      have hm := tryEnqueue_meta (acc.cs (acc.backing.getD i 0)) m
      simp only [Function.update_same]
      exact ⟨hm.2.2.2.2.1, hm.2.2.2.2.2, hm.2.2.1, hm.1⟩
    · simp [Function.update_noteq h]
  · split <;> exact ⟨rfl, rfl, rfl, rfl⟩

/- ------------------------------------------------------------------ -/
/- Concrete states used by witnesses and counterexamples.              -/
/- ------------------------------------------------------------------ -/

/-- A uniform client population: user `"u"`, outbound queue capacity 1. -/
def csA : ClientId → ClientState := fun _ => freshClient "u" "n" 1

def hubA : HubState := initHub csA

/- ------------------------------------------------------------------ -/
/- C8: unknown inbound envelope type.                                  -/
/- ------------------------------------------------------------------ -/

/-- C8: an inbound envelope whose type is none of `join_room`, `leave_room`,
`typing`, `stop_typing`, `ping` is answered with an `error` envelope
(carrying a message and the timestamp) on the connection's own queue, the
connection is not torn down (queue stays open, no hub index changes, no
other client touched), and the read loop goes on to the next frame. -/
theorem C8_unknown_type (s : HubState) (c : ClientId) (now : Nat) (e : InEnv)
    (rest : List (InEnv × Nat))
    (ht : e.type ∉ ["join_room", "leave_room", "typing", "stop_typing", "ping"])
    (hcl : (s.cs c).closed = false)
    (hlt : (s.cs c).queue.length < (s.cs c).cap) :
    ((handleMessage s c now e).cs c).queue
      = (s.cs c).queue ++ [Msg.error ("Unknown message type: " ++ e.type) now] ∧
    ((handleMessage s c now e).cs c).closed = false ∧
    (handleMessage s c now e).clients = s.clients ∧
    (handleMessage s c now e).rooms = s.rooms ∧
    (handleMessage s c now e).userConns = s.userConns ∧
    (∀ d : ClientId, d ≠ c → (handleMessage s c now e).cs d = s.cs d) ∧
    processFrames s c ((e, now) :: rest) = processFrames (handleMessage s c now e) c rest := by
  simp only [List.mem_cons, List.mem_singleton, not_or] at ht
  obtain ⟨h1, h2, h3, h4, h5, -⟩ := ht
  have hred : handleMessage s c now e = { s with cs := Function.update s.cs c ({ s.cs c with queue := (s.cs c).queue ++ [Msg.error ("Unknown message type: " ++ e.type) now] }) } := by
    unfold handleMessage
    rw [if_neg h1, if_neg h2, if_neg h3, if_neg h4, if_neg h5]
    unfold sendError SendMessage
    simp only []
    rw [tryEnqueue_success _ _ hcl hlt]
    simp
  refine ⟨?_, ?_, ?_, ?_, ?_, ?_, rfl⟩
  · rw [hred]; simp
  · rw [hred]; simp [hcl]
  · rw [hred]
  · rw [hred]
  · rw [hred]
  · intro d hd
    rw [hred]
    simp [Function.update_noteq hd]

/-- C8 witness at a concrete hub state and envelope. -/
theorem C8_unknown_type_witness :
    (⟨"bogus", none, none⟩ : InEnv).type
        ∉ ["join_room", "leave_room", "typing", "stop_typing", "ping"] ∧
    ((handleMessage hubA 0 7 ⟨"bogus", none, none⟩).cs 0).queue
      = (hubA.cs 0).queue ++ [Msg.error ("Unknown message type: " ++ "bogus") 7] :=
  ⟨by decide,
   (C8_unknown_type hubA 0 7 ⟨"bogus", none, none⟩ [] (by decide) (by decide) (by decide)).1⟩

/- ------------------------------------------------------------------ -/
/- C9: locally generated reply on a full queue closes the queue.       -/
/- ------------------------------------------------------------------ -/

/-- C9: when the connection's own queue is full, a locally generated reply
(the `pong` answer to an inbound `ping`, or the `error` answer to an
unknown envelope) goes through `Client.SendMessage`, which closes the
outbound queue instead of dropping the reply; none of the hub's indices
(global set, rooms, user index) is touched. -/
theorem C9_reply_full_closes (s : HubState) (c : ClientId) (now : Nat) (ty : String)
    (hcl : (s.cs c).closed = false)
    (hfull : (s.cs c).cap ≤ (s.cs c).queue.length)
    (ht : ty ∉ ["join_room", "leave_room", "typing", "stop_typing", "ping"]) :
    (((handleMessage s c now ⟨"ping", none, none⟩).cs c).closed = true ∧
     ((handleMessage s c now ⟨"ping", none, none⟩).cs c).queue = (s.cs c).queue ∧
     (handleMessage s c now ⟨"ping", none, none⟩).clients = s.clients ∧
     (handleMessage s c now ⟨"ping", none, none⟩).rooms = s.rooms ∧
     (handleMessage s c now ⟨"ping", none, none⟩).userConns = s.userConns) ∧
    (((handleMessage s c now ⟨ty, none, none⟩).cs c).closed = true ∧
     ((handleMessage s c now ⟨ty, none, none⟩).cs c).queue = (s.cs c).queue ∧
     (handleMessage s c now ⟨ty, none, none⟩).clients = s.clients ∧
     (handleMessage s c now ⟨ty, none, none⟩).rooms = s.rooms ∧
     (handleMessage s c now ⟨ty, none, none⟩).userConns = s.userConns) := by
  simp only [List.mem_cons, List.mem_singleton, not_or] at ht
  obtain ⟨h1, h2, h3, h4, h5, -⟩ := ht
  have hping : handleMessage s c now ⟨"ping", none, none⟩ =
      { s with cs := Function.update s.cs c (closeChan (s.cs c)) } := by
    unfold handleMessage
    rw [if_neg (by decide), if_neg (by decide), if_neg (by decide), if_neg (by decide),
        if_pos (by decide)]
    unfold SendMessage
    simp only []
    rw [tryEnqueue_fail _ _ hcl hfull]
    simp
  have hty : handleMessage s c now ⟨ty, none, none⟩ =
      { s with cs := Function.update s.cs c (closeChan (s.cs c)) } := by
    unfold handleMessage
    rw [if_neg h1, if_neg h2, if_neg h3, if_neg h4, if_neg h5]
    unfold sendError SendMessage
    simp only []
    rw [tryEnqueue_fail _ _ hcl hfull]
    simp
  constructor
  · rw [hping]
    refine ⟨by simp [closeChan], by simp [closeChan], rfl, rfl, rfl⟩
  · rw [hty]
    refine ⟨by simp [closeChan], by simp [closeChan], rfl, rfl, rfl⟩

/-- C9 witness at a concrete hub state with a full queue. -/
theorem C9_reply_full_closes_witness :
    (let s := broadcastToAll (applyOps hubA [HubOp.register 0]) (Msg.payload "x")
     (s.cs 0).closed = false ∧ (s.cs 0).cap ≤ (s.cs 0).queue.length ∧
     ((handleMessage s 0 9 ⟨"ping", none, none⟩).cs 0).closed = true ∧
     ((handleMessage s 0 9 ⟨"bogus", none, none⟩).cs 0).closed = true) := by
  refine ⟨by decide, by decide, ?_, ?_⟩
  · exact (C9_reply_full_closes (broadcastToAll (applyOps hubA [HubOp.register 0])
      (Msg.payload "x")) 0 9 "bogus" (by decide) (by decide) (by decide)).1.1
  · exact (C9_reply_full_closes (broadcastToAll (applyOps hubA [HubOp.register 0])
      (Msg.payload "x")) 0 9 "bogus" (by decide) (by decide) (by decide)).2.1

/- ------------------------------------------------------------------ -/
/- Case characterizations of `leaveRoom`.                              -/
/- ------------------------------------------------------------------ -/

theorem leaveRoom_lookup_none (s : HubState) (c : ClientId) (r : String)
    (h : alookup s.rooms r = none) :
    leaveRoom s c r = { s with cs := Function.update s.cs c ({ s.cs c with rooms := (s.cs c).rooms.erase r }) } := by
  unfold leaveRoom
  simp only [h]

theorem leaveRoom_some_empty (s : HubState) (c : ClientId) (r : String)
    (mem : List ClientId) (h : alookup s.rooms r = some mem) (he : mem.erase c = []) :
    leaveRoom s c r = { s with rooms := aerase s.rooms r, cs := Function.update s.cs c ({ s.cs c with rooms := (s.cs c).rooms.erase r }) } := by
  unfold leaveRoom
  simp [h, he]

theorem leaveRoom_some_ne (s : HubState) (c : ClientId) (r : String)
    (mem : List ClientId) (h : alookup s.rooms r = some mem) (he : mem.erase c ≠ []) :
    leaveRoom s c r = { s with rooms := aset s.rooms r (mem.erase c), cs := Function.update s.cs c ({ s.cs c with rooms := (s.cs c).rooms.erase r }) } := by
  unfold leaveRoom
  simp [h, he]

/- ------------------------------------------------------------------ -/
/- C7: JoinRoom and LeaveRoom are idempotent.                          -/
/- ------------------------------------------------------------------ -/

/-- C7: calling `JoinRoom(c, r)` twice in a row leaves the hub in exactly
the state of calling it once, and likewise for `LeaveRoom(c, r)` (under the
keyset/member-set uniqueness that Go maps guarantee). -/
theorem C7_join_leave_idempotent (s : HubState) (c : ClientId) (r : String)
    (h1 : (s.rooms.map Prod.fst).Nodup)
    (h2 : ∀ p ∈ s.rooms, p.2.Nodup)
    (h3 : (s.cs c).rooms.Nodup) :
    joinRoom (joinRoom s c r) c r = joinRoom s c r ∧
    leaveRoom (leaveRoom s c r) c r = leaveRoom s c r := by
  constructor
  · unfold joinRoom
    simp only []
    have hv : c ∈ insertIfAbsent c ((alookup s.rooms r).getD []) :=
      self_mem_insertIfAbsent c _
    have hr : r ∈ insertIfAbsent r (s.cs c).rooms :=
      self_mem_insertIfAbsent r _
    simp [alookup_aset_self, Function.update_same, insertIfAbsent_of_mem hv,
      insertIfAbsent_of_mem hr, aset_aset, Function.update_idem]
  · have hee : ((s.cs c).rooms.erase r).erase r = (s.cs c).rooms.erase r :=
      List.erase_of_not_mem h3.not_mem_erase
    rcases hl : alookup s.rooms r with _ | mem
    · rw [leaveRoom_lookup_none s c r hl]
      rw [leaveRoom_lookup_none _ c r (by simpa using hl)]
      simp [Function.update_same, Function.update_idem, hee]
    · have hmemnd : mem.Nodup := h2 (r, mem) (alookup_mem hl)
      by_cases hme : mem.erase c = []
      · rw [leaveRoom_some_empty s c r mem hl hme]
        rw [leaveRoom_lookup_none _ c r (by simpa using alookup_aerase_self s.rooms r h1)]
        simp [Function.update_same, Function.update_idem, hee]
      · rw [leaveRoom_some_ne s c r mem hl hme]
        have hl2 : alookup (aset s.rooms r (mem.erase c)) r = some (mem.erase c) :=
          alookup_aset_self s.rooms r (mem.erase c)
        have hc2 : (mem.erase c).erase c = mem.erase c :=
          List.erase_of_not_mem hmemnd.not_mem_erase
        rw [leaveRoom_some_ne _ c r (mem.erase c) (by simpa using hl2) (by simpa [hc2] using hme)]
        simp [Function.update_same, Function.update_idem, hee, hc2, aset_aset]

/-- C7 witness at a concrete two-client hub. -/
theorem C7_join_leave_idempotent_witness :
    (let s := applyOps hubA [HubOp.register 0, HubOp.join 0 "g1", HubOp.register 1, HubOp.join 1 "g1"]
     joinRoom (joinRoom s 0 "g1") 0 "g1" = joinRoom s 0 "g1" ∧
     leaveRoom (leaveRoom s 0 "g1") 0 "g1" = leaveRoom s 0 "g1") :=
  C7_join_leave_idempotent _ 0 "g1" (by decide) (by decide) (by decide)

/- ------------------------------------------------------------------ -/
/- Counterexample states: client 0 (user "u", capacity 1) is filled    -/
/- by one BroadcastAll, then evicted by the various broadcast paths.   -/
/- ------------------------------------------------------------------ -/

/-- Client 0 registered, in rooms `g1` and `g2`, queue filled to capacity. -/
def sFull2 : HubState :=
  applyOps hubA [HubOp.register 0, HubOp.join 0 "g1", HubOp.join 0 "g2",
    HubOp.broadcastAll (Msg.payload "m1")]

/-- C1 as stated is false: when `BroadcastRoom "g1"` meets client 0's full
queue it closes the queue and removes 0 from room `g1` only — 0 stays in
the global registered set, in the user index, and in room `g2`, and a
subsequent `RoomMembers "g2"` query still lists it. -/
theorem C1_counterexample :
    ((sFull2.cs 0).cap ≤ (sFull2.cs 0).queue.length ∧ (sFull2.cs 0).closed = false ∧
     0 ∈ GetRoomClients sFull2 "g1") ∧
    (let t := broadcastToRoom sFull2 "g1" (Msg.payload "m2")
     (t.cs 0).closed = true ∧ 0 ∈ t.clients ∧ GetUserConnections t "u" = [0] ∧
     GetRoomClients t "g2" = [0]) := by
  decide

/-- C2 as stated is false: after the room-broadcast eviction, client 0 is
still registered and `"g1"` is still in its room set, but 0 is no longer in
room `g1`'s member set. -/
theorem C2_counterexample :
    (let t := applyOps hubA [HubOp.register 0, HubOp.join 0 "g1",
        HubOp.broadcastAll (Msg.payload "m1"), HubOp.broadcastRoom "g1" (Msg.payload "m2")]
     0 ∈ t.clients ∧ "g1" ∈ (t.cs 0).rooms ∧ 0 ∉ GetRoomClients t "g1") := by
  decide

/-- C3 as stated is false: a room-broadcast eviction closes the queue but
leaves the client in the global set, so the following unregister closes the
same queue a second time. -/
theorem C3_counterexample :
    (let t := applyOps hubA [HubOp.register 0, HubOp.join 0 "g1",
        HubOp.broadcastAll (Msg.payload "m1"), HubOp.broadcastRoom "g1" (Msg.payload "m2"),
        HubOp.unregister 0]
     (t.cs 0).closeCount = 2) := by
  decide

/-- C4 as stated is false: a global-broadcast eviction removes client 0 from
the registered set but leaves it in the user-connection index. -/
theorem C4_counterexample :
    (let t := applyOps hubA [HubOp.register 0, HubOp.broadcastAll (Msg.payload "m1"),
        HubOp.broadcastAll (Msg.payload "m2")]
     0 ∉ t.clients ∧ (t.cs 0).userId = "u" ∧ GetUserConnections t "u" = [0]) := by
  decide

/- ------------------------------------------------------------------ -/
/- Success / failure characterizations of the loop steps.              -/
/- ------------------------------------------------------------------ -/

theorem ballStep_success (m : Msg) (acc : HubState) (c : ClientId)
    (h1 : (acc.cs c).closed = false) (h2 : (acc.cs c).queue.length < (acc.cs c).cap) :
    ballStep m acc c = { acc with cs := Function.update acc.cs c ({ acc.cs c with queue := (acc.cs c).queue ++ [m] }) } := by
  unfold ballStep
  simp only []
  rw [tryEnqueue_success _ _ h1 h2]
  simp

theorem ballStep_fail (m : Msg) (acc : HubState) (c : ClientId)
    (h1 : (acc.cs c).closed = false) (h2 : (acc.cs c).cap ≤ (acc.cs c).queue.length) :
    ballStep m acc c = { acc with cs := Function.update acc.cs c (closeChan (acc.cs c)), clients := acc.clients.erase c } := by
  unfold ballStep
  simp only []
  rw [tryEnqueue_fail _ _ h1 h2]
  simp

theorem broomStep_success (r : String) (m : Msg) (acc : HubState) (c : ClientId)
    (h1 : (acc.cs c).closed = false) (h2 : (acc.cs c).queue.length < (acc.cs c).cap) :
    broomStep r m acc c = { acc with cs := Function.update acc.cs c ({ acc.cs c with queue := (acc.cs c).queue ++ [m] }) } := by
  unfold broomStep
  simp only []
  rw [tryEnqueue_success _ _ h1 h2]
  simp

/- ------------------------------------------------------------------ -/
/- C6: exact delivery on a room broadcast with no saturated queue.     -/
/- ------------------------------------------------------------------ -/

/-- When every member of the snapshot list still has an open, non-full
queue, the room-broadcast fold appends exactly one copy of the message to
each member's queue and leaves every non-member's client state unchanged. -/
theorem broom_all_success (r : String) (m : Msg) :
    ∀ (l : List ClientId) (acc : HubState), l.Nodup →
      (∀ d ∈ l, (acc.cs d).closed = false ∧ (acc.cs d).queue.length < (acc.cs d).cap) →
      (∀ d ∈ l, ((l.foldl (broomStep r m) acc).cs d).queue = (acc.cs d).queue ++ [m]) ∧
      (∀ d, d ∉ l → (l.foldl (broomStep r m) acc).cs d = acc.cs d)
  | [], acc, _, _ => ⟨fun d hd => absurd hd (List.not_mem_nil d), fun _ _ => rfl⟩
  | x :: t, acc, hnd, hok => by
    have hx := hok x (List.mem_cons_self x t)
    have hstep := broomStep_success r m acc x hx.1 hx.2
    have hndt : t.Nodup := (List.nodup_cons.1 hnd).2
    have hxt : x ∉ t := (List.nodup_cons.1 hnd).1
    have hcs_ne : ∀ d, d ≠ x → (broomStep r m acc x).cs d = acc.cs d := by
      intro d hd
      rw [hstep]
      simp [Function.update_noteq hd]
    have hokt : ∀ d ∈ t, ((broomStep r m acc x).cs d).closed = false ∧
        ((broomStep r m acc x).cs d).queue.length < ((broomStep r m acc x).cs d).cap := by
      intro d hd
      rw [hcs_ne d (fun hdx => hxt (hdx ▸ hd))]
      exact hok d (List.mem_cons_of_mem x hd)
    have ih := broom_all_success r m t (broomStep r m acc x) hndt hokt
    refine ⟨?_, ?_⟩
    · intro d hd
      rcases List.mem_cons.1 hd with hdx | hdt
      · subst hdx
        rw [List.foldl_cons, ih.2 d hxt, hstep]
        simp
      · rw [List.foldl_cons, ih.1 d hdt, hcs_ne d (fun hdx => hxt (hdx ▸ hdt))]
    · intro d hd
      rw [List.foldl_cons, ih.2 d (fun hdt => hd (List.mem_cons_of_mem x hdt)),
        hcs_ne d (fun hdx => hd (hdx ▸ List.mem_cons_self x t))]

/-- C6: if A and B are members of room r, C is not, and no member's queue is
full, one `BroadcastRoom` enqueues exactly one copy of the message onto A's
and B's queues and nothing onto C's. -/
theorem C6_room_delivery (s : HubState) (r : String) (m : Msg) (A B C : ClientId)
    (mem : List ClientId) (hl : alookup s.rooms r = some mem) (hnd : mem.Nodup)
    (hA : A ∈ mem) (hB : B ∈ mem) (hC : C ∉ mem)
    (hok : ∀ d ∈ mem, (s.cs d).closed = false ∧ (s.cs d).queue.length < (s.cs d).cap) :
    ((broadcastToRoom s r m).cs A).queue = (s.cs A).queue ++ [m] ∧
    ((broadcastToRoom s r m).cs B).queue = (s.cs B).queue ++ [m] ∧
    ((broadcastToRoom s r m).cs C).queue = (s.cs C).queue := by
  have h := broom_all_success r m mem s hnd hok
  unfold broadcastToRoom
  rw [hl]
  exact ⟨h.1 A hA, h.1 B hB, congrArg (fun st => st.queue) (h.2 C hC)⟩

/-- C6 witness: clients 0 and 1 in room `g1`, client 2 outside it. -/
theorem C6_room_delivery_witness :
    (let s := applyOps hubA [HubOp.register 0, HubOp.register 1, HubOp.register 2,
        HubOp.join 0 "g1", HubOp.join 1 "g1", HubOp.join 2 "g2"]
     ((broadcastToRoom s "g1" (Msg.payload "M")).cs 0).queue = (s.cs 0).queue ++ [Msg.payload "M"] ∧
     ((broadcastToRoom s "g1" (Msg.payload "M")).cs 1).queue = (s.cs 1).queue ++ [Msg.payload "M"] ∧
     ((broadcastToRoom s "g1" (Msg.payload "M")).cs 2).queue = (s.cs 2).queue) :=
  C6_room_delivery _ "g1" (Msg.payload "M") 0 1 2 [0, 1] (by decide) (by decide)
    (by decide) (by decide) (by decide) (by decide)

/- ------------------------------------------------------------------ -/
/- C5: BroadcastToUser touches only the user index.                    -/
/- ------------------------------------------------------------------ -/

theorem firstIdx_cons_self (c : ClientId) (l : List ClientId) :
    firstIdx c (c :: l) = some 0 := by
  simp [firstIdx]

theorem firstIdx_lt {c : ClientId} :
    ∀ {l : List ClientId} {j : Nat}, firstIdx c l = some j → j < l.length
  | [], j, h => by simp [firstIdx] at h
  | x :: t, j, h => by
    by_cases hx : x = c
    · rw [firstIdx, if_pos hx] at h
      cases h
      simp
    · rw [firstIdx, if_neg hx] at h
      rcases hmap : firstIdx c t with _ | j0
      · rw [hmap] at h
        simp at h
      · rw [hmap] at h
        simp at h
        subst h
        have := firstIdx_lt hmap
        simp only [List.length_cons]
        omega

theorem shiftRemove_length (l : List ClientId) (j len : Nat) (h1 : j < len)
    (h2 : len ≤ l.length) : (shiftRemove l j len).length = l.length := by
  unfold shiftRemove
  simp only [List.length_append, List.length_take, List.length_drop]
  omega

theorem shiftRemove_take (l : List ClientId) (j len : Nat) (h1 : j < len)
    (h2 : len ≤ l.length) :
    (shiftRemove l j len).take (len - 1) = (l.take len).eraseIdx j := by
  have hAB : (l.take j ++ (l.drop (j + 1)).take (len - 1 - j)).length = len - 1 := by
    simp only [List.length_append, List.length_take, List.length_drop]
    omega
  rw [shiftRemove, List.take_left' hAB, List.eraseIdx_eq_take_drop_succ,
    List.take_take, List.drop_take]
  congr 1
  · rw [Nat.min_eq_left (le_of_lt h1)]
  · congr 1
    omega

theorem broadcastToUser_none (s : HubState) (u : String) (m : Msg)
    (hl : alookup s.userConns u = none) : broadcastToUser s u m = s := by
  unfold broadcastToUser
  rw [hl]

theorem broadcastToUser_some (s : HubState) (u : String) (m : Msg) (conns : List ClientId)
    (hl : alookup s.userConns u = some conns) :
    broadcastToUser s u m =
      { s with
        userConns :=
          if ((List.range conns.length).foldl (btuStep m) ⟨conns, conns.length, s.cs⟩).len = conns.length then s.userConns
          else if ((List.range conns.length).foldl (btuStep m) ⟨conns, conns.length, s.cs⟩).len = 0 then aerase s.userConns u
          else aset s.userConns u (((List.range conns.length).foldl (btuStep m) ⟨conns, conns.length, s.cs⟩).backing.take ((List.range conns.length).foldl (btuStep m) ⟨conns, conns.length, s.cs⟩).len),
        cs := ((List.range conns.length).foldl (btuStep m) ⟨conns, conns.length, s.cs⟩).cs } := by
  unfold broadcastToUser
  rw [hl]

/-- The loop invariant of the `BroadcastToUser` iteration: once a client is
outside the logical slice it never re-enters it, the logical length stays
under the backing array's length, and it never grows. -/
theorem btuStep_sticky (m : Msg) (c : ClientId) (bound : Nat) (acc : BtuAcc) (i : Nat)
    (h : c ∉ acc.backing.take acc.len ∧ acc.len ≤ acc.backing.length ∧ acc.len ≤ bound) :
    c ∉ (btuStep m acc i).backing.take (btuStep m acc i).len ∧
    (btuStep m acc i).len ≤ (btuStep m acc i).backing.length ∧
    (btuStep m acc i).len ≤ bound := by
  obtain ⟨h1, h2, h3⟩ := h
  unfold btuStep
  simp only []
  split
  · exact ⟨h1, h2, h3⟩
  · split
    · exact ⟨h1, h2, h3⟩
    · rename_i j hf
      have hj : j < acc.len := by
        have hlt := firstIdx_lt hf
        simp only [List.length_take] at hlt
        omega
      have hlen := shiftRemove_length acc.backing j acc.len hj h2
      refine ⟨?_, ?_, ?_⟩
      · simp only []
        rw [shiftRemove_take acc.backing j acc.len hj h2]
        intro hc
        exact h1 ((List.eraseIdx_sublist _ j).mem hc)
      · simp only [hlen]
        omega
      · simp only []
        omega

/-- C5: a `BroadcastToUser` never closes any queue, never changes the
global registered set, the room index, or any client's room set (first
part, unconditional), and when the first listed connection of the target
user has a full queue, it is removed from the user-connection index
(second part). -/
theorem C5_broadcast_user_frame :
    (∀ (s : HubState) (u : String) (m : Msg),
      (broadcastToUser s u m).clients = s.clients ∧
      (broadcastToUser s u m).rooms = s.rooms ∧
      (∀ d : ClientId, ((broadcastToUser s u m).cs d).closed = (s.cs d).closed ∧
        ((broadcastToUser s u m).cs d).closeCount = (s.cs d).closeCount ∧
        ((broadcastToUser s u m).cs d).rooms = (s.cs d).rooms)) ∧
    (∀ (s : HubState) (u : String) (m : Msg) (c : ClientId) (rest : List ClientId),
      alookup s.userConns u = some (c :: rest) → c ∉ rest →
      (s.userConns.map Prod.fst).Nodup →
      (s.cs c).closed = false → (s.cs c).cap ≤ (s.cs c).queue.length →
      c ∉ GetUserConnections (broadcastToUser s u m) u) := by
  constructor
  · intro s u m
    rcases hl : alookup s.userConns u with _ | conns
    · rw [broadcastToUser_none s u m hl]
      exact ⟨rfl, rfl, fun d => ⟨rfl, rfl, rfl⟩⟩
    · rw [broadcastToUser_some s u m conns hl]
      refine ⟨rfl, rfl, ?_⟩
      intro d
      exact foldl_preserve (f := btuStep m)
        (P := fun acc => (acc.cs d).closed = (s.cs d).closed ∧
          (acc.cs d).closeCount = (s.cs d).closeCount ∧
          (acc.cs d).rooms = (s.cs d).rooms)
        (fun b i hb => by
          have hfields := btuStep_cs_fields m b i d
          exact ⟨hfields.1.trans hb.1, hfields.2.1.trans hb.2.1, hfields.2.2.1.trans hb.2.2⟩)
        (List.range conns.length) ⟨conns, conns.length, s.cs⟩ ⟨rfl, rfl, rfl⟩
  · intro s u m c rest hl hcr hknd hcl hfull
    rw [broadcastToUser_some s u m (c :: rest) hl]
    have hstep0 : btuStep m ⟨c :: rest, (c :: rest).length, s.cs⟩ 0 =
        ⟨shiftRemove (c :: rest) 0 (rest.length + 1), rest.length, s.cs⟩ := by
      unfold btuStep
      simp only [List.getD_cons_zero]
      rw [tryEnqueue_fail _ _ hcl hfull]
      simp only [Bool.false_eq_true, if_false]
      rw [List.take_of_length_le (le_refl _), firstIdx_cons_self]
      rfl
    have hrange : List.range ((c :: rest).length) = 0 :: (List.range rest.length).map Nat.succ := by
      simp only [List.length_cons]
      exact List.range_succ_eq_map rest.length
    rw [hrange, List.foldl_cons, hstep0]
    have hinv0 : c ∉ (shiftRemove (c :: rest) 0 (rest.length + 1)).take rest.length ∧
        rest.length ≤ (shiftRemove (c :: rest) 0 (rest.length + 1)).length ∧
        rest.length ≤ rest.length := by
      have ht : (shiftRemove (c :: rest) 0 (rest.length + 1)).take (rest.length + 1 - 1)
          = ((c :: rest).take (rest.length + 1)).eraseIdx 0 :=
        shiftRemove_take (c :: rest) 0 (rest.length + 1) (Nat.succ_pos _) (by simp)
      refine ⟨?_, ?_, le_refl _⟩
      · simp only [Nat.add_sub_cancel] at ht
        rw [ht, List.take_of_length_le (by simp)]
        simpa using hcr
      · rw [shiftRemove_length _ _ _ (Nat.succ_pos _) (by simp)]
        simp
    have hfin := foldl_preserve (f := btuStep m)
      (P := fun acc : BtuAcc => c ∉ acc.backing.take acc.len ∧
        acc.len ≤ acc.backing.length ∧ acc.len ≤ rest.length)
      (fun b i hb => btuStep_sticky m c rest.length b i hb)
      ((List.range rest.length).map Nat.succ)
      ⟨shiftRemove (c :: rest) 0 (rest.length + 1), rest.length, s.cs⟩ hinv0
    set fin := ((List.range rest.length).map Nat.succ).foldl (btuStep m)
      ⟨shiftRemove (c :: rest) 0 (rest.length + 1), rest.length, s.cs⟩ with hfin_def
    have hne : ¬(fin.len = (c :: rest).length) := by
      simp only [List.length_cons]
      omega
    rw [if_neg hne]
    by_cases hz : fin.len = 0
    · rw [if_pos hz]
      unfold GetUserConnections
      simp only []
      rw [alookup_aerase_self s.userConns u hknd]
      simp
    · rw [if_neg hz]
      unfold GetUserConnections
      simp only []
      rw [alookup_aset_self]
      simpa using hfin.1

/-- C5 witness: user "u" has the single connection 0, whose queue is full. -/
theorem C5_broadcast_user_frame_witness :
    (let s := broadcastToAll (applyOps hubA [HubOp.register 0]) (Msg.payload "x")
     0 ∉ GetUserConnections (broadcastToUser s "u" (Msg.payload "M")) "u") :=
  C5_broadcast_user_frame.2 _ "u" (Msg.payload "M") 0 [] (by decide) (by decide)
    (by decide) (by decide) (by decide)

/- ------------------------------------------------------------------ -/
/- C1: what eviction actually does on each broadcast path.             -/
/- ------------------------------------------------------------------ -/

theorem ballStep_clients_of_ne (m : Msg) (acc : HubState) (d x : ClientId)
    (hne : x ≠ d) (hx : x ∈ acc.clients) : x ∈ (ballStep m acc d).clients := by
  unfold ballStep
  simp only []
  split
  · exact hx
  · exact (List.mem_erase_of_ne hne).2 hx

/-- Folding the global-broadcast step over a list that does not contain `c`
leaves `c`'s client state, the room index and the user index unchanged, and
keeps `c`'s registration status. -/
theorem ball_skip (m : Msg) (c : ClientId) :
    ∀ (l : List ClientId) (acc : HubState), c ∉ l →
      (l.foldl (ballStep m) acc).cs c = acc.cs c ∧
      (l.foldl (ballStep m) acc).rooms = acc.rooms ∧
      (l.foldl (ballStep m) acc).userConns = acc.userConns ∧
      (c ∈ (l.foldl (ballStep m) acc).clients ↔ c ∈ acc.clients)
  | [], acc, _ => ⟨rfl, rfl, rfl, Iff.rfl⟩
  | d :: t, acc, hc => by
    have hcd : c ≠ d := fun h => hc (h ▸ List.mem_cons_self d t)
    have hct : c ∉ t := fun h => hc (List.mem_cons_of_mem d h)
    have ih := ball_skip m c t (ballStep m acc d) hct
    rw [List.foldl_cons]
    refine ⟨ih.1.trans (ballStep_cs_ne m acc d c hcd), ih.2.1.trans (ballStep_rooms m acc d),
      ih.2.2.1.trans (ballStep_userConns m acc d), ih.2.2.2.trans ?_⟩
    constructor
    · exact ballStep_clients_sub m acc d c
    · exact ballStep_clients_of_ne m acc d c hcd

theorem broomStep_keys_nodup (r : String) (m : Msg) (acc : HubState) (d : ClientId)
    (h : (acc.rooms.map Prod.fst).Nodup) :
    ((broomStep r m acc d).rooms.map Prod.fst).Nodup := by
  unfold broomStep
  simp only []
  split
  · exact h
  · split
    · exact h
    · split
      · exact keys_aerase_nodup _ _ h
      · exact keys_aset_nodup _ _ _ h

/-- Folding the room-broadcast step over a list that does not contain `c`
leaves `c`'s client state, the registered set and the user index unchanged;
it keeps `c` inside the room's member list if it was there (with the member
list staying duplicate-free), and keeps `c` outside of it if it was not. -/
theorem broom_skip (r : String) (m : Msg) (c : ClientId) :
    ∀ (l : List ClientId) (acc : HubState), c ∉ l →
      (l.foldl (broomStep r m) acc).cs c = acc.cs c ∧
      (l.foldl (broomStep r m) acc).clients = acc.clients ∧
      (l.foldl (broomStep r m) acc).userConns = acc.userConns ∧
      (∀ cur, alookup acc.rooms r = some cur → c ∈ cur → cur.Nodup →
        ∃ cur2, alookup (l.foldl (broomStep r m) acc).rooms r = some cur2 ∧
          c ∈ cur2 ∧ cur2.Nodup) ∧
      ((acc.rooms.map Prod.fst).Nodup → c ∉ (alookup acc.rooms r).getD [] →
        c ∉ (alookup (l.foldl (broomStep r m) acc).rooms r).getD [])
  | [], acc, _ => ⟨rfl, rfl, rfl, fun cur h1 h2 h3 => ⟨cur, h1, h2, h3⟩, fun _ h => h⟩
  | d :: t, acc, hc => by
    have hcd : c ≠ d := fun h => hc (h ▸ List.mem_cons_self d t)
    have hct : c ∉ t := fun h => hc (List.mem_cons_of_mem d h)
    have ih := broom_skip r m c t (broomStep r m acc d) hct
    rw [List.foldl_cons]
    refine ⟨ih.1.trans (broomStep_cs_ne r m acc d c hcd),
      ih.2.1.trans (broomStep_clients r m acc d),
      ih.2.2.1.trans (broomStep_userConns r m acc d), ?_, ?_⟩
    · intro cur h1 h2 h3
      have hstep : ∃ cur1, alookup (broomStep r m acc d).rooms r = some cur1 ∧
          c ∈ cur1 ∧ cur1.Nodup := by
        unfold broomStep
        simp only []
        split
        · exact ⟨cur, h1, h2, h3⟩
        · split
          · rename_i heq
            rw [h1] at heq
            simp at heq
          · rename_i cur0 heq
            rw [h1] at heq
            injection heq with hcc
            subst hcc
            have hcur2 : c ∈ cur.erase d := (List.mem_erase_of_ne hcd).2 h2
            rw [if_neg (fun he => by rw [he] at hcur2; exact absurd hcur2 (List.not_mem_nil c))]
            exact ⟨cur.erase d, alookup_aset_self _ _ _, hcur2, h3.erase d⟩
      obtain ⟨cur1, hc1, hc2, hc3⟩ := hstep
      exact ih.2.2.2.1 cur1 hc1 hc2 hc3
    · intro hknd hout
      refine ih.2.2.2.2 (broomStep_keys_nodup r m acc d hknd) ?_
      unfold broomStep
      simp only []
      split
      · exact hout
      · split
        · exact hout
        · rename_i cur heq
          split
          · rw [alookup_aerase_self _ _ hknd]
            simp
          · rw [alookup_aset_self]
            simp only [Option.getD_some]
            intro hmem
            rw [heq] at hout
            simp only [Option.getD_some] at hout
            exact hout (List.mem_of_mem_erase hmem)

theorem broadcastToRoom_some (s : HubState) (r : String) (m : Msg) (mem : List ClientId)
    (hl : alookup s.rooms r = some mem) :
    broadcastToRoom s r m = mem.foldl (broomStep r m) s := by
  unfold broadcastToRoom
  rw [hl]

theorem broomStep_fail_some (r : String) (m : Msg) (acc : HubState) (c : ClientId)
    (cur : List ClientId) (hcl : (acc.cs c).closed = false)
    (hfull : (acc.cs c).cap ≤ (acc.cs c).queue.length)
    (hlook : alookup acc.rooms r = some cur) :
    broomStep r m acc c =
      (if cur.erase c = [] then { acc with cs := Function.update acc.cs c (closeChan (acc.cs c)), rooms := aerase acc.rooms r }
       else { acc with cs := Function.update acc.cs c (closeChan (acc.cs c)), rooms := aset acc.rooms r (cur.erase c) }) := by
  unfold broomStep
  simp only []
  rw [tryEnqueue_fail _ _ hcl hfull]
  simp only [Bool.false_eq_true, if_false]
  rw [hlook]

/-- C1 (amended): on a full queue, `BroadcastAll` closes the queue and
removes the connection from the global registered set only — rooms, the
user index and the connection's own room set are untouched; `BroadcastRoom`
closes the queue and removes the connection from that one room's member set
only — the registered set, the user index and the connection's own room set
are untouched. -/
theorem C1_amended_eviction :
    (∀ (s : HubState) (m : Msg) (c : ClientId),
      s.clients.Nodup → c ∈ s.clients →
      (s.cs c).closed = false → (s.cs c).cap ≤ (s.cs c).queue.length →
      c ∉ (broadcastToAll s m).clients ∧
      ((broadcastToAll s m).cs c).closed = true ∧
      (broadcastToAll s m).rooms = s.rooms ∧
      (broadcastToAll s m).userConns = s.userConns ∧
      ((broadcastToAll s m).cs c).rooms = (s.cs c).rooms) ∧
    (∀ (s : HubState) (r : String) (m : Msg) (c : ClientId) (mem : List ClientId),
      alookup s.rooms r = some mem → mem.Nodup → (s.rooms.map Prod.fst).Nodup →
      c ∈ mem → (s.cs c).closed = false → (s.cs c).cap ≤ (s.cs c).queue.length →
      c ∉ GetRoomClients (broadcastToRoom s r m) r ∧
      ((broadcastToRoom s r m).cs c).closed = true ∧
      (broadcastToRoom s r m).clients = s.clients ∧
      (broadcastToRoom s r m).userConns = s.userConns ∧
      ((broadcastToRoom s r m).cs c).rooms = (s.cs c).rooms) := by
  constructor
  · intro s m c hnd hmem hcl hfull
    obtain ⟨l1, l2, hsplit⟩ := List.append_of_mem hmem
    have hndsplit : (l1 ++ c :: l2).Nodup := hsplit ▸ hnd
    have hparts := List.nodup_append.1 hndsplit
    have hcl1 : c ∉ l1 := fun hc => hparts.2.2 hc (List.mem_cons_self c l2)
    have hcl2 : c ∉ l2 := (List.nodup_cons.1 hparts.2.1).1
    have hnd1 : (l1.foldl (ballStep m) s).clients.Nodup :=
      foldl_preserve (fun b a hb => ballStep_clients_nodup m b a hb) l1 s hnd
    have hskip1 := ball_skip m c l1 s hcl1
    have hfail : ballStep m (l1.foldl (ballStep m) s) c =
        { l1.foldl (ballStep m) s with
          cs := Function.update (l1.foldl (ballStep m) s).cs c (closeChan ((l1.foldl (ballStep m) s).cs c)),
          clients := (l1.foldl (ballStep m) s).clients.erase c } :=
      ballStep_fail m _ c (by rw [hskip1.1]; exact hcl) (by rw [hskip1.1]; exact hfull)
    have hskip2 := ball_skip m c l2 (ballStep m (l1.foldl (ballStep m) s) c) hcl2
    unfold broadcastToAll
    rw [hsplit, List.foldl_append, List.foldl_cons]
    refine ⟨?_, ?_, ?_, ?_, ?_⟩
    · intro hcfin
      have h1 := hskip2.2.2.2.1 hcfin
      rw [hfail] at h1
      exact hnd1.not_mem_erase h1
    · rw [hskip2.1, hfail]
      simp [Function.update_same, closeChan]
    · rw [hskip2.2.1, hfail]
      exact hskip1.2.1
    · rw [hskip2.2.2.1, hfail]
      exact hskip1.2.2.1
    · rw [hskip2.1, hfail]
      simp only [Function.update_same]
      rw [(closeChan_meta _).2.2.1, hskip1.1]
  · intro s r m c mem hl hmemnd hknd hcmem hcl hfull
    obtain ⟨l1, l2, hsplit⟩ := List.append_of_mem hcmem
    have hndsplit : (l1 ++ c :: l2).Nodup := hsplit ▸ hmemnd
    have hparts := List.nodup_append.1 hndsplit
    have hcl1 : c ∉ l1 := fun hc => hparts.2.2 hc (List.mem_cons_self c l2)
    have hcl2 : c ∉ l2 := (List.nodup_cons.1 hparts.2.1).1
    have hskip1 := broom_skip r m c l1 s hcl1
    have hknd1 : ((l1.foldl (broomStep r m) s).rooms.map Prod.fst).Nodup :=
      foldl_preserve (fun b a hb => broomStep_keys_nodup r m b a hb) l1 s hknd
    obtain ⟨cur2, hcur2look, hccur2, hcur2nd⟩ := hskip1.2.2.2.1 mem hl hcmem hmemnd
    have hfail := broomStep_fail_some r m (l1.foldl (broomStep r m) s) c cur2
      (by rw [hskip1.1]; exact hcl) (by rw [hskip1.1]; exact hfull) hcur2look
    have hout2 : c ∉ (alookup (broomStep r m (l1.foldl (broomStep r m) s) c).rooms r).getD [] := by
      rw [hfail]
      by_cases he : cur2.erase c = []
      · rw [if_pos he]
        simp only []
        rw [alookup_aerase_self _ _ hknd1]
        simp
      · rw [if_neg he]
        simp only []
        rw [alookup_aset_self]
        simp only [Option.getD_some]
        exact hcur2nd.not_mem_erase
    have hknd2 : ((broomStep r m (l1.foldl (broomStep r m) s) c).rooms.map Prod.fst).Nodup :=
      broomStep_keys_nodup r m _ c hknd1
    have hskip2 := broom_skip r m c l2 (broomStep r m (l1.foldl (broomStep r m) s) c) hcl2
    rw [broadcastToRoom_some s r m mem hl, hsplit, List.foldl_append, List.foldl_cons]
    refine ⟨?_, ?_, ?_, ?_, ?_⟩
    · exact hskip2.2.2.2.2 hknd2 hout2
    · rw [hskip2.1, hfail]
      by_cases he : cur2.erase c = []
      · rw [if_pos he]
        simp [Function.update_same, closeChan]
      · rw [if_neg he]
        simp [Function.update_same, closeChan]
    · rw [hskip2.2.1, hfail]
      by_cases he : cur2.erase c = []
      · rw [if_pos he]
        exact hskip1.2.1
      · rw [if_neg he]
        exact hskip1.2.1
    · rw [hskip2.2.2.1, hfail]
      by_cases he : cur2.erase c = []
      · rw [if_pos he]
        exact hskip1.2.2.1
      · rw [if_neg he]
        exact hskip1.2.2.1
    · rw [hskip2.1, hfail]
      by_cases he : cur2.erase c = []
      · rw [if_pos he]
        simp only [Function.update_same]
        rw [(closeChan_meta _).2.2.1, hskip1.1]
      · rw [if_neg he]
        simp only [Function.update_same]
        rw [(closeChan_meta _).2.2.1, hskip1.1]

/-- C1 amended witness: the `sFull2` scenario of the counterexample, on both
broadcast paths. -/
theorem C1_amended_eviction_witness :
    (0 ∉ (broadcastToAll sFull2 (Msg.payload "m3")).clients ∧
     ((broadcastToAll sFull2 (Msg.payload "m3")).cs 0).closed = true ∧
     (broadcastToAll sFull2 (Msg.payload "m3")).rooms = sFull2.rooms ∧
     (broadcastToAll sFull2 (Msg.payload "m3")).userConns = sFull2.userConns ∧
     ((broadcastToAll sFull2 (Msg.payload "m3")).cs 0).rooms = (sFull2.cs 0).rooms) ∧
    (0 ∉ GetRoomClients (broadcastToRoom sFull2 "g1" (Msg.payload "m2")) "g1" ∧
     ((broadcastToRoom sFull2 "g1" (Msg.payload "m2")).cs 0).closed = true ∧
     (broadcastToRoom sFull2 "g1" (Msg.payload "m2")).clients = sFull2.clients ∧
     (broadcastToRoom sFull2 "g1" (Msg.payload "m2")).userConns = sFull2.userConns ∧
     ((broadcastToRoom sFull2 "g1" (Msg.payload "m2")).cs 0).rooms = (sFull2.cs 0).rooms) :=
  ⟨C1_amended_eviction.1 sFull2 (Msg.payload "m3") 0 (by decide) (by decide) (by decide) (by decide),
   C1_amended_eviction.2 sFull2 "g1" (Msg.payload "m2") 0 [0] (by decide) (by decide)
     (by decide) (by decide) (by decide) (by decide)⟩

/- ------------------------------------------------------------------ -/
/- C10: the user index never holds an empty connection list.           -/
/- ------------------------------------------------------------------ -/

/-- Invariant: every entry of the user-connection index is non-empty. -/
def Inv10 (s : HubState) : Prop := ∀ p ∈ s.userConns, p.2 ≠ []

instance (s : HubState) : Decidable (Inv10 s) := by
  unfold Inv10; infer_instance

theorem joinRoom_userConns (s : HubState) (c : ClientId) (r : String) :
    (joinRoom s c r).userConns = s.userConns := rfl

theorem leaveRoom_userConns (s : HubState) (c : ClientId) (r : String) :
    (leaveRoom s c r).userConns = s.userConns := by
  unfold leaveRoom
  simp only []
  split
  · rfl
  · split <;> rfl

theorem joinRoom_clients (s : HubState) (c : ClientId) (r : String) :
    (joinRoom s c r).clients = s.clients := rfl

theorem leaveRoom_clients (s : HubState) (c : ClientId) (r : String) :
    (leaveRoom s c r).clients = s.clients := by
  unfold leaveRoom
  simp only []
  split
  · rfl
  · split <;> rfl

theorem unregStep_userConns (c : ClientId) (acc : HubState) (r : String) :
    (unregStep c acc r).userConns = acc.userConns := by
  unfold unregStep
  split
  · rfl
  · simp only []
    split <;> rfl

theorem unregStep_clients (c : ClientId) (acc : HubState) (r : String) :
    (unregStep c acc r).clients = acc.clients := by
  unfold unregStep
  split
  · rfl
  · simp only []
    split <;> rfl

theorem unregStep_cs (c : ClientId) (acc : HubState) (r : String) :
    (unregStep c acc r).cs = acc.cs := by
  unfold unregStep
  split
  · rfl
  · simp only []
    split <;> rfl

theorem broadcastToAll_userConns (s : HubState) (m : Msg) :
    (broadcastToAll s m).userConns = s.userConns :=
  foldl_preserve (P := fun acc => acc.userConns = s.userConns)
    (fun b a hb => (ballStep_userConns m b a).trans hb) s.clients s rfl

theorem pingClients_userConns (s : HubState) :
    (pingClients s).userConns = s.userConns :=
  foldl_preserve (P := fun acc => acc.userConns = s.userConns)
    (fun b a hb => (ballStep_userConns Msg.ping b a).trans hb) s.clients s rfl

theorem broadcastToRoom_userConns (s : HubState) (r : String) (m : Msg) :
    (broadcastToRoom s r m).userConns = s.userConns := by
  unfold broadcastToRoom
  split
  · rfl
  · exact foldl_preserve (P := fun acc => acc.userConns = s.userConns)
      (fun b a hb => (broomStep_userConns r m b a).trans hb) _ s rfl

theorem removeUC_inv10 (uc : List (String × List ClientId)) (uid : String) (c : ClientId)
    (h : ∀ p ∈ uc, p.2 ≠ []) : ∀ p ∈ removeUC uc uid c, p.2 ≠ [] := by
  unfold removeUC
  split
  · exact h
  · rename_i conns hlook
    simp only []
    split
    · intro p hp
      exact h p (mem_aerase hp)
    · rename_i hlen
      intro p hp
      rcases mem_aset hp with h1 | h1
      · rw [h1]
        intro hh
        have hh2 : conns.erase c = [] := hh
        rw [hh2] at hlen
        simp at hlen
      · exact h p h1

theorem btuStep_len (m : Msg) (acc : BtuAcc) (i : Nat)
    (h : acc.len ≤ acc.backing.length) :
    (btuStep m acc i).len ≤ (btuStep m acc i).backing.length := by
  unfold btuStep
  simp only []
  split
  · exact h
  · split
    · exact h
    · rename_i j hf
      have hj : j < acc.len := by
        have hlt := firstIdx_lt hf
        simp only [List.length_take] at hlt
        omega
      simp only [shiftRemove_length acc.backing j acc.len hj h]
      omega

theorem unregFold_cs (c : ClientId) (l : List String) (acc : HubState) :
    (l.foldl (unregStep c) acc).cs = acc.cs :=
  foldl_preserve (P := fun b => b.cs = acc.cs)
    (fun b a hb => (unregStep_cs c b a).trans hb) l acc rfl

theorem unregFold_userConns (c : ClientId) (l : List String) (acc : HubState) :
    (l.foldl (unregStep c) acc).userConns = acc.userConns :=
  foldl_preserve (P := fun b => b.userConns = acc.userConns)
    (fun b a hb => (unregStep_userConns c b a).trans hb) l acc rfl

theorem unregFold_clients (c : ClientId) (l : List String) (acc : HubState) :
    (l.foldl (unregStep c) acc).clients = acc.clients :=
  foldl_preserve (P := fun b => b.clients = acc.clients)
    (fun b a hb => (unregStep_clients c b a).trans hb) l acc rfl

/-- The user index after `unregisterClient` is either untouched or the
result of one `removeUserConnection` for the client's own user id. -/
theorem unregisterClient_userConns (s : HubState) (c : ClientId) :
    (unregisterClient s c).userConns = s.userConns ∨
    (unregisterClient s c).userConns = removeUC s.userConns ((s.cs c).userId) c := by
  unfold unregisterClient
  simp only []
  by_cases hb : c ∈ s.clients
  · rw [if_pos hb]
    split
    · left
      rw [unregFold_userConns]
    · right
      simp only []
      rw [unregFold_userConns, unregFold_cs]
      simp only [Function.update_same]
      rw [(closeChan_meta (s.cs c)).1]
  · rw [if_neg hb]
    split
    · left
      rw [unregFold_userConns]
    · right
      simp only []
      rw [unregFold_userConns, unregFold_cs]

/-- Every hub operation preserves the non-emptiness of the user index. -/
theorem applyOp_inv10 (s : HubState) (op : HubOp) (h : Inv10 s) : Inv10 (applyOp s op) := by
  cases op with
  | register c =>
    show Inv10 (registerClient s c)
    unfold registerClient
    simp only []
    split
    · exact h
    · intro p hp
      rcases mem_aset hp with h1 | h1
      · rw [h1]
        simp
      · exact h p h1
  | unregister c =>
    show Inv10 (unregisterClient s c)
    rcases unregisterClient_userConns s c with hcase | hcase
    · intro p hp
      rw [hcase] at hp
      exact h p hp
    · intro p hp
      rw [hcase] at hp
      exact removeUC_inv10 s.userConns ((s.cs c).userId) c h p hp
  | join c r =>
    show Inv10 (joinRoom s c r)
    intro p hp
    rw [joinRoom_userConns] at hp
    exact h p hp
  | leave c r =>
    show Inv10 (leaveRoom s c r)
    intro p hp
    rw [leaveRoom_userConns] at hp
    exact h p hp
  | broadcastAll m =>
    show Inv10 (broadcastToAll s m)
    intro p hp
    rw [broadcastToAll_userConns] at hp
    exact h p hp
  | broadcastRoom r m =>
    show Inv10 (broadcastToRoom s r m)
    intro p hp
    rw [broadcastToRoom_userConns] at hp
    exact h p hp
  | keepalive =>
    show Inv10 (pingClients s)
    intro p hp
    rw [pingClients_userConns] at hp
    exact h p hp
  | broadcastUser u m =>
    show Inv10 (broadcastToUser s u m)
    rcases hl : alookup s.userConns u with _ | conns
    · rw [broadcastToUser_none s u m hl]
      exact h
    · rw [broadcastToUser_some s u m conns hl]
      intro p hp
      simp only [] at hp
      split at hp
      · exact h p hp
      · split at hp
        · exact h p (mem_aerase hp)
        · rename_i hne hz
          rcases mem_aset hp with h1 | h1
          · rw [h1]
            simp only []
            have hlen : ((List.range conns.length).foldl (btuStep m) ⟨conns, conns.length, s.cs⟩).len ≤
                ((List.range conns.length).foldl (btuStep m) ⟨conns, conns.length, s.cs⟩).backing.length :=
              foldl_preserve (P := fun acc : BtuAcc => acc.len ≤ acc.backing.length)
                (fun b i hb => btuStep_len m b i hb) _ ⟨conns, conns.length, s.cs⟩ (le_refl _)
            intro hemp
            rw [List.take_eq_nil_iff] at hemp
            rcases hemp with hemp | hemp
            · exact hz hemp
            · rw [hemp] at hlen
              simp at hlen
              exact hz hlen
          · exact h p h1

/-- C10: from any state whose user index has no empty entry, every sequence
of hub operations preserves that; consequently `IsUserOnline u` is true
exactly when `u` is a key of the index, and `GetOnlineUsers` returns
exactly the keys of the index. -/
theorem C10_user_index_nonempty (s : HubState) (ops : List HubOp) (h : Inv10 s) :
    Inv10 (applyOps s ops) ∧
    (∀ u, IsUserOnline (applyOps s ops) u = true ↔
      (alookup (applyOps s ops).userConns u).isSome = true) ∧
    GetOnlineUsers (applyOps s ops) = (applyOps s ops).userConns.map Prod.fst := by
  have hinv : Inv10 (applyOps s ops) :=
    foldl_preserve (P := Inv10) (fun b op hb => applyOp_inv10 b op hb) ops s h
  refine ⟨hinv, ?_, ?_⟩
  · intro u
    unfold IsUserOnline
    rcases hl : alookup (applyOps s ops).userConns u with _ | conns
    · simp
    · have hne : conns ≠ [] := hinv (u, conns) (alookup_mem hl)
      simp [List.length_pos.2 hne]
  · unfold GetOnlineUsers
    have : (applyOps s ops).userConns.filter (fun p => decide (0 < p.2.length))
        = (applyOps s ops).userConns := by
      rw [List.filter_eq_self]
      intro p hp
      simp only [decide_eq_true_eq]
      exact List.length_pos.2 (hinv p hp)
    rw [this]

/-- C10 witness: a run that registers, joins, broadcasts on every path,
evicts, and unregisters. -/
theorem C10_user_index_nonempty_witness :
    Inv10 (applyOps hubA [HubOp.register 0, HubOp.register 1, HubOp.join 0 "g1",
      HubOp.broadcastAll (Msg.payload "m1"), HubOp.broadcastUser "u" (Msg.payload "m2"),
      HubOp.broadcastRoom "g1" (Msg.payload "m3"), HubOp.keepalive, HubOp.unregister 0,
      HubOp.unregister 1]) :=
  (C10_user_index_nonempty hubA [HubOp.register 0, HubOp.register 1, HubOp.join 0 "g1",
      HubOp.broadcastAll (Msg.payload "m1"), HubOp.broadcastUser "u" (Msg.payload "m2"),
      HubOp.broadcastRoom "g1" (Msg.payload "m3"), HubOp.keepalive, HubOp.unregister 0,
      HubOp.unregister 1] (by decide)).1

/- ------------------------------------------------------------------ -/
/- C3: at-most-once close, on the paths that maintain it.              -/
/- ------------------------------------------------------------------ -/

theorem registerClient_cs (s : HubState) (c : ClientId) :
    (registerClient s c).cs = s.cs := by
  unfold registerClient
  simp only []
  split <;> rfl

theorem registerClient_clients (s : HubState) (c : ClientId) :
    (registerClient s c).clients = insertIfAbsent c s.clients := by
  unfold registerClient
  simp only []
  split <;> rfl

theorem registerClient_rooms (s : HubState) (c : ClientId) :
    (registerClient s c).rooms = s.rooms := by
  unfold registerClient
  simp only []
  split <;> rfl

theorem unregisterClient_cs (s : HubState) (c : ClientId) :
    (unregisterClient s c).cs =
      (if c ∈ s.clients then Function.update s.cs c (closeChan (s.cs c)) else s.cs) := by
  unfold unregisterClient
  simp only []
  by_cases hb : c ∈ s.clients
  · rw [if_pos hb, if_pos hb]
    split
    · rw [unregFold_cs]
    · simp only []
      rw [unregFold_cs]
  · rw [if_neg hb, if_neg hb]
    split
    · rw [unregFold_cs]
    · simp only []
      rw [unregFold_cs]

theorem unregisterClient_clients (s : HubState) (c : ClientId) :
    (unregisterClient s c).clients =
      (if c ∈ s.clients then s.clients.erase c else s.clients) := by
  unfold unregisterClient
  simp only []
  by_cases hb : c ∈ s.clients
  · rw [if_pos hb, if_pos hb]
    split
    · rw [unregFold_clients]
    · simp only []
      rw [unregFold_clients]
  · rw [if_neg hb, if_neg hb]
    split
    · rw [unregFold_clients]
    · simp only []
      rw [unregFold_clients]

theorem joinRoom_cs_chan (s : HubState) (c : ClientId) (r : String) (x : ClientId) :
    ((joinRoom s c r).cs x).closed = (s.cs x).closed ∧
    ((joinRoom s c r).cs x).closeCount = (s.cs x).closeCount ∧
    ((joinRoom s c r).cs x).sendAfterClose = (s.cs x).sendAfterClose ∧
    ((joinRoom s c r).cs x).userId = (s.cs x).userId := by
  unfold joinRoom
  simp only []
  by_cases hx : x = c
  · subst hx
    simp [Function.update_same]
  · simp [Function.update_noteq hx]

theorem leaveRoom_cs_chan (s : HubState) (c : ClientId) (r : String) (x : ClientId) :
    ((leaveRoom s c r).cs x).closed = (s.cs x).closed ∧
    ((leaveRoom s c r).cs x).closeCount = (s.cs x).closeCount ∧
    ((leaveRoom s c r).cs x).sendAfterClose = (s.cs x).sendAfterClose ∧
    ((leaveRoom s c r).cs x).userId = (s.cs x).userId := by
  unfold leaveRoom
  simp only []
  by_cases hx : x = c
  · subst hx
    split
    · simp [Function.update_same]
    · split <;> simp [Function.update_same]
  · split
    · simp [Function.update_noteq hx]
    · split <;> simp [Function.update_noteq hx]

/-- Invariant behind claim C3: registered clients have open queues, every
queue has been closed exactly as often as its closed flag says (0 or 1
times), and no send has ever been attempted on a closed queue. -/
def Inv3 (s : HubState) : Prop :=
  s.clients.Nodup ∧
  (∀ c : ClientId, (s.cs c).closeCount = (if (s.cs c).closed then 1 else 0)) ∧
  (∀ c ∈ s.clients, (s.cs c).closed = false) ∧
  (∀ c : ClientId, (s.cs c).sendAfterClose = false)

/-- The operations kept by the amended claim: everything except the
room-broadcast and user-broadcast paths. -/
def allowC3 : HubOp → Bool
  | .broadcastRoom _ _ => false
  | .broadcastUser _ _ => false
  | _ => true

/-- The global-broadcast / keepalive loop preserves `Inv3` when started on a
duplicate-free snapshot of currently registered clients. -/
theorem ball_fold_inv3 (m : Msg) :
    ∀ (l : List ClientId) (acc : HubState), Inv3 acc → (∀ x ∈ l, x ∈ acc.clients) →
      l.Nodup → Inv3 (l.foldl (ballStep m) acc)
  | [], acc, h, _, _ => h
  | x :: t, acc, h, hsub, hnd => by
    have hx : x ∈ acc.clients := hsub x (List.mem_cons_self x t)
    have hxcl : (acc.cs x).closed = false := h.2.2.1 x hx
    have hxt : x ∉ t := (List.nodup_cons.1 hnd).1
    rw [List.foldl_cons]
    by_cases hfull : (acc.cs x).queue.length < (acc.cs x).cap
    · rw [ballStep_success m acc x hxcl hfull]
      refine ball_fold_inv3 m t _ ⟨h.1, ?_, ?_, ?_⟩ ?_ (List.nodup_cons.1 hnd).2
      · intro d
        by_cases hd : d = x
        · subst hd
          simp only [Function.update_same]
          exact h.2.1 d
        · simp only [Function.update_noteq hd]
          exact h.2.1 d
      · intro d hd
        by_cases hdx : d = x
        · subst hdx
          simp only [Function.update_same]
          exact hxcl
        · simp only [Function.update_noteq hdx]
          exact h.2.2.1 d hd
      · intro d
        by_cases hd : d = x
        · subst hd
          simp only [Function.update_same]
          exact h.2.2.2 d
        · simp only [Function.update_noteq hd]
          exact h.2.2.2 d
      · intro d hd
        exact hsub d (List.mem_cons_of_mem x hd)
    · rw [ballStep_fail m acc x hxcl (Nat.not_lt.1 hfull)]
      have hcount : (acc.cs x).closeCount = 0 := by
        have := h.2.1 x
        rw [hxcl] at this
        simpa using this
      refine ball_fold_inv3 m t _ ⟨h.1.erase x, ?_, ?_, ?_⟩ ?_ (List.nodup_cons.1 hnd).2
      · intro d
        by_cases hd : d = x
        · subst hd
          simp [Function.update_same, closeChan, hcount]
        · simp only [Function.update_noteq hd]
          exact h.2.1 d
      · intro d hd
        have hdx : d ≠ x := fun hh => h.1.not_mem_erase (by subst hh; exact hd)
        simp only [Function.update_noteq hdx]
        exact h.2.2.1 d (List.mem_of_mem_erase hd)
      · intro d
        by_cases hd : d = x
        · subst hd
          simp only [Function.update_same]
          rw [(closeChan_meta (acc.cs d)).2.2.2.2.2]
          exact h.2.2.2 d
        · simp only [Function.update_noteq hd]
          exact h.2.2.2 d
      · intro d hd
        exact (List.mem_erase_of_ne (fun hh => hxt (by subst hh; exact hd))).2
          (hsub d (List.mem_cons_of_mem x hd))

/-- A single allowed operation preserves `Inv3`. -/
theorem applyOp_inv3 (s : HubState) (op : HubOp) (h : Inv3 s)
    (hallow : allowC3 op = true) (hreg : RegOK s op) : Inv3 (applyOp s op) := by
  cases op with
  | register c =>
    show Inv3 (registerClient s c)
    obtain ⟨hnotin, -, hcl, -, -⟩ := hreg
    rw [Inv3, registerClient_cs, registerClient_clients]
    refine ⟨nodup_insertIfAbsent c h.1, h.2.1, ?_, h.2.2.2⟩
    intro d hd
    rcases mem_insertIfAbsent.1 hd with hdc | hdc
    · subst hdc
      exact hcl
    · exact h.2.2.1 d hdc
  | unregister c =>
    show Inv3 (unregisterClient s c)
    rw [Inv3, unregisterClient_cs, unregisterClient_clients]
    by_cases hb : c ∈ s.clients
    · rw [if_pos hb, if_pos hb]
      have hccl : (s.cs c).closed = false := h.2.2.1 c hb
      have hcount : (s.cs c).closeCount = 0 := by
        have := h.2.1 c
        rw [hccl] at this
        simpa using this
      refine ⟨h.1.erase c, ?_, ?_, ?_⟩
      · intro d
        by_cases hd : d = c
        · subst hd
          simp [Function.update_same, closeChan, hcount]
        · simp only [Function.update_noteq hd]
          exact h.2.1 d
      · intro d hd
        have hdc : d ≠ c := fun hh => h.1.not_mem_erase (by subst hh; exact hd)
        simp only [Function.update_noteq hdc]
        exact h.2.2.1 d (List.mem_of_mem_erase hd)
      · intro d
        by_cases hd : d = c
        · subst hd
          simp only [Function.update_same]
          rw [(closeChan_meta (s.cs d)).2.2.2.2.2]
          exact h.2.2.2 d
        · simp only [Function.update_noteq hd]
          exact h.2.2.2 d
    · rw [if_neg hb, if_neg hb]
      exact h
  | join c r =>
    show Inv3 (joinRoom s c r)
    have hcs := joinRoom_cs_chan s c r
    rw [Inv3, joinRoom_clients]
    refine ⟨h.1, ?_, ?_, ?_⟩
    · intro d
      rw [(hcs d).1, (hcs d).2.1]
      exact h.2.1 d
    · intro d hd
      rw [(hcs d).1]
      exact h.2.2.1 d hd
    · intro d
      rw [(hcs d).2.2.1]
      exact h.2.2.2 d
  | leave c r =>
    show Inv3 (leaveRoom s c r)
    have hcs := leaveRoom_cs_chan s c r
    rw [Inv3, leaveRoom_clients]
    refine ⟨h.1, ?_, ?_, ?_⟩
    · intro d
      rw [(hcs d).1, (hcs d).2.1]
      exact h.2.1 d
    · intro d hd
      rw [(hcs d).1]
      exact h.2.2.1 d hd
    · intro d
      rw [(hcs d).2.2.1]
      exact h.2.2.2 d
  | broadcastAll m =>
    show Inv3 (broadcastToAll s m)
    exact ball_fold_inv3 m s.clients s h (fun x hx => hx) h.1
  | keepalive =>
    show Inv3 (pingClients s)
    exact ball_fold_inv3 Msg.ping s.clients s h (fun x hx => hx) h.1
  | broadcastRoom r m => simp [allowC3] at hallow
  | broadcastUser u m => simp [allowC3] at hallow

theorem applyOps_inv3 : ∀ (ops : List HubOp) (s : HubState), Inv3 s →
    SeqOK allowC3 s ops → Inv3 (applyOps s ops)
  | [], _, h, _ => h
  | op :: rest, s, h, hs =>
    applyOps_inv3 rest (applyOp s op) (applyOp_inv3 s op h hs.1 hs.2.1) hs.2.2

/-- C3 (amended): along any run of register (fresh clients), unregister,
join, leave, BroadcastAll and keepalive operations, every queue is closed
at most once and no send is ever attempted on a closed queue — in
particular a double unregister closes only once. -/
theorem C3_amended_close_once (s : HubState) (ops : List HubOp) (h : Inv3 s)
    (hs : SeqOK allowC3 s ops) :
    Inv3 (applyOps s ops) ∧
    (∀ c : ClientId, ((applyOps s ops).cs c).closeCount ≤ 1 ∧
      ((applyOps s ops).cs c).sendAfterClose = false) := by
  have hinv := applyOps_inv3 ops s h hs
  refine ⟨hinv, ?_⟩
  intro c
  refine ⟨?_, hinv.2.2.2 c⟩
  rw [hinv.2.1 c]
  split <;> omega

/-- C3 witness: the double-unregister run. -/
theorem C3_amended_close_once_witness :
    ((applyOps hubA [HubOp.register 0, HubOp.join 0 "g1",
        HubOp.broadcastAll (Msg.payload "m1"), HubOp.broadcastAll (Msg.payload "m2"),
        HubOp.unregister 0, HubOp.unregister 0]).cs 0).closeCount ≤ 1 ∧
      ((applyOps hubA [HubOp.register 0, HubOp.join 0 "g1",
        HubOp.broadcastAll (Msg.payload "m1"), HubOp.broadcastAll (Msg.payload "m2"),
        HubOp.unregister 0, HubOp.unregister 0]).cs 0).sendAfterClose = false :=
  (C3_amended_close_once hubA [HubOp.register 0, HubOp.join 0 "g1",
      HubOp.broadcastAll (Msg.payload "m1"), HubOp.broadcastAll (Msg.payload "m2"),
      HubOp.unregister 0, HubOp.unregister 0]
    ⟨by decide, fun c => rfl, by decide, fun c => rfl⟩ (by decide)).2 0

/- ------------------------------------------------------------------ -/
/- C2: the room-membership invariant, on the paths that maintain it.   -/
/- ------------------------------------------------------------------ -/

theorem mem_aerase_nodup {β : Type} {l : List (String × β)} {k : String} {p : String × β}
    (hknd : (l.map Prod.fst).Nodup) (h : p ∈ aerase l k) : p ∈ l ∧ p.1 ≠ k := by
  induction l with
  | nil => simp [aerase] at h
  | cons q t ih =>
    obtain ⟨k1, v1⟩ := q
    simp only [List.map_cons, List.nodup_cons] at hknd
    by_cases h1 : k1 = k
    · subst h1
      simp only [aerase, if_true, eq_self_iff_true] at h
      refine ⟨List.mem_cons_of_mem _ h, ?_⟩
      intro hk
      exact hknd.1 (hk ▸ List.mem_map_of_mem Prod.fst h)
    · simp only [aerase, if_neg h1] at h
      rcases List.mem_cons.1 h with h2 | h2
      · exact ⟨List.mem_cons.2 (Or.inl h2), by rw [h2]; exact h1⟩
      · obtain ⟨hm, hne⟩ := ih hknd.2 h2
        exact ⟨List.mem_cons_of_mem _ hm, hne⟩

/-- Plumbing: a pair of an association list with unique keys is determined
by its key. -/
theorem alookup_eq_of_mem {β : Type} {l : List (String × β)} {p : String × β}
    (hknd : (l.map Prod.fst).Nodup) (hp : p ∈ l) : alookup l p.1 = some p.2 := by
  induction l with
  | nil => simp at hp
  | cons q t ih =>
    obtain ⟨k1, v1⟩ := q
    simp only [List.map_cons, List.nodup_cons] at hknd
    rcases List.mem_cons.1 hp with h2 | h2
    · rw [h2]
      simp [alookup]
    · have hne : k1 ≠ p.1 := by
        intro hk
        exact hknd.1 (hk ▸ List.mem_map_of_mem Prod.fst h2)
      simp only [alookup, if_neg hne]
      exact ih hknd.2 h2

/-- Well-formedness carried alongside the C2 invariant: duplicate-free
client list, room keys, member sets, and per-client room sets. -/
def WF2 (s : HubState) : Prop :=
  s.clients.Nodup ∧ (s.rooms.map Prod.fst).Nodup ∧ (∀ p ∈ s.rooms, p.2.Nodup) ∧
  (∀ c : ClientId, (s.cs c).rooms.Nodup)

/-- Claim C2's invariant, for registered connections: membership in a room's
member set is equivalent to the room id being in the connection's room set,
and every room id in a connection's room set denotes an existing room. -/
def Inv2 (s : HubState) : Prop :=
  ∀ c ∈ s.clients,
    (∀ p ∈ s.rooms, (c ∈ p.2 ↔ p.1 ∈ (s.cs c).rooms)) ∧
    (∀ r ∈ (s.cs c).rooms, (alookup s.rooms r).isSome = true)

/-- All operations except `BroadcastRoom`. -/
def allowC2 : HubOp → Bool
  | .broadcastRoom _ _ => false
  | _ => true

theorem joinRoom_pres2 (s : HubState) (c : ClientId) (r : String)
    (hwf : WF2 s) (hinv : Inv2 s) : WF2 (joinRoom s c r) ∧ Inv2 (joinRoom s c r) := by
  obtain ⟨hcnd, hknd, hmnd, hrnd⟩ := hwf
  have hmem0nd : ((alookup s.rooms r).getD []).Nodup := by
    rcases hl : alookup s.rooms r with _ | mem
    · simp
    · simpa using hmnd (r, mem) (alookup_mem hl)
  constructor
  · refine ⟨hcnd, keys_aset_nodup _ _ _ hknd, ?_, ?_⟩
    · intro p hp
      rcases mem_aset hp with h1 | h1
      · rw [h1]
        exact nodup_insertIfAbsent c hmem0nd
      · exact hmnd p h1
    · intro x
      unfold joinRoom
      simp only []
      by_cases hx : x = c
      · subst hx
        simp only [Function.update_same]
        exact nodup_insertIfAbsent r (hrnd x)
      · simp only [Function.update_noteq hx]
        exact hrnd x
  · intro d hd
    have hd0 : d ∈ s.clients := hd
    constructor
    · intro p hp
      rcases mem_aset_nodup hknd hp with h1 | h1
      · rw [h1]
        simp only []
        by_cases hdc : d = c
        · subst hdc
          unfold joinRoom
          simp only [Function.update_same]
          constructor
          · intro _
            exact self_mem_insertIfAbsent r _
          · intro _
            exact self_mem_insertIfAbsent d _
        · unfold joinRoom
          simp only [Function.update_noteq hdc]
          rw [mem_insertIfAbsent]
          have hiff : d ∈ (alookup s.rooms r).getD [] ↔ r ∈ (s.cs d).rooms := by
            rcases hl : alookup s.rooms r with _ | mem
            · simp only [Option.getD_none]
              constructor
              · intro hh
                exact absurd hh (List.not_mem_nil d)
              · intro hh
                have := (hinv d hd0).2 r hh
                rw [hl] at this
                simp at this
            · simpa using (hinv d hd0).1 (r, mem) (alookup_mem hl)
          constructor
          · intro hh
            rcases hh with hh | hh
            · exact absurd hh hdc
            · exact hiff.1 hh
          · intro hh
            exact Or.inr (hiff.2 hh)
      · obtain ⟨hpmem, hpne⟩ := h1
        by_cases hdc : d = c
        · subst hdc
          unfold joinRoom
          simp only [Function.update_same]
          rw [mem_insertIfAbsent]
          have hold := (hinv d hd0).1 p hpmem
          constructor
          · intro hh
            exact Or.inr (hold.1 hh)
          · intro hh
            rcases hh with hh | hh
            · exact absurd hh hpne
            · exact hold.2 hh
        · unfold joinRoom
          simp only [Function.update_noteq hdc]
          exact (hinv d hd0).1 p hpmem
    · intro r2 hr2
      by_cases hr2r : r2 = r
      · subst hr2r
        rw [joinRoom]
        simp only []
        rw [alookup_aset_self]
        rfl
      · have hr2old : r2 ∈ (s.cs d).rooms := by
          by_cases hdc : d = c
          · subst hdc
            unfold joinRoom at hr2
            simp only [Function.update_same] at hr2
            rcases mem_insertIfAbsent.1 hr2 with hh | hh
            · exact absurd hh hr2r
            · exact hh
          · unfold joinRoom at hr2
            simp only [Function.update_noteq hdc] at hr2
            exact hr2
        rw [joinRoom]
        simp only []
        rw [alookup_aset_ne _ _ _ _ hr2r]
        exact (hinv d hd0).2 r2 hr2old

theorem leaveRoom_pres2 (s : HubState) (c : ClientId) (r : String)
    (hwf : WF2 s) (hinv : Inv2 s) : WF2 (leaveRoom s c r) ∧ Inv2 (leaveRoom s c r) := by
  obtain ⟨hcnd, hknd, hmnd, hrnd⟩ := hwf
  rcases hl : alookup s.rooms r with _ | mem
  · rw [leaveRoom_lookup_none s c r hl]
    constructor
    · refine ⟨hcnd, hknd, hmnd, ?_⟩
      intro x
      by_cases hx : x = c
      · subst hx
        simp only [Function.update_same]
        exact (hrnd x).erase r
      · simp only [Function.update_noteq hx]
        exact hrnd x
    · intro d hd
      have hd0 : d ∈ s.clients := hd
      constructor
      · intro p hp
        by_cases hdc : d = c
        · subst hdc
          simp only [Function.update_same]
          have hpne : p.1 ≠ r := by
            intro hk
            have : r ∈ s.rooms.map Prod.fst := hk ▸ List.mem_map_of_mem Prod.fst hp
            exact (alookup_eq_none_iff s.rooms r).1 hl this
          rw [List.mem_erase_of_ne hpne]
          exact (hinv d hd0).1 p hp
        · simp only [Function.update_noteq hdc]
          exact (hinv d hd0).1 p hp
      · intro r2 hr2
        by_cases hdc : d = c
        · subst hdc
          simp only [Function.update_same] at hr2
          exact (hinv d hd0).2 r2 (List.mem_of_mem_erase hr2)
        · simp only [Function.update_noteq hdc] at hr2
          exact (hinv d hd0).2 r2 hr2
  · have hmemnd : mem.Nodup := hmnd (r, mem) (alookup_mem hl)
    by_cases he : mem.erase c = []
    · rw [leaveRoom_some_empty s c r mem hl he]
      constructor
      · refine ⟨hcnd, keys_aerase_nodup _ _ hknd, ?_, ?_⟩
        · intro p hp
          exact hmnd p (mem_aerase hp)
        · intro x
          by_cases hx : x = c
          · subst hx
            simp only [Function.update_same]
            exact (hrnd x).erase r
          · simp only [Function.update_noteq hx]
            exact hrnd x
      · intro d hd
        have hd0 : d ∈ s.clients := hd
        constructor
        · intro p hp
          obtain ⟨hpmem, hpne⟩ := mem_aerase_nodup hknd hp
          by_cases hdc : d = c
          · subst hdc
            simp only [Function.update_same]
            rw [List.mem_erase_of_ne hpne]
            exact (hinv d hd0).1 p hpmem
          · simp only [Function.update_noteq hdc]
            exact (hinv d hd0).1 p hpmem
        · intro r2 hr2
          by_cases hdc : d = c
          · subst hdc
            simp only [Function.update_same] at hr2
            have hr2r : r2 ≠ r := ((hrnd d).mem_erase_iff.1 hr2).1
            rw [alookup_aerase_ne _ _ _ hr2r]
            exact (hinv d hd0).2 r2 (List.mem_of_mem_erase hr2)
          · simp only [Function.update_noteq hdc] at hr2
            by_cases hr2r : r2 = r
            · subst hr2r
              have hdmem : d ∈ mem := ((hinv d hd0).1 (r2, mem) (alookup_mem hl)).2 hr2
              have : d ∈ mem.erase c := (List.mem_erase_of_ne hdc).2 hdmem
              rw [he] at this
              exact absurd this (List.not_mem_nil d)
            · rw [alookup_aerase_ne _ _ _ hr2r]
              exact (hinv d hd0).2 r2 hr2
    · rw [leaveRoom_some_ne s c r mem hl he]
      constructor
      · refine ⟨hcnd, keys_aset_nodup _ _ _ hknd, ?_, ?_⟩
        · intro p hp
          rcases mem_aset hp with h1 | h1
          · rw [h1]
            exact hmemnd.erase c
          · exact hmnd p h1
        · intro x
          by_cases hx : x = c
          · subst hx
            simp only [Function.update_same]
            exact (hrnd x).erase r
          · simp only [Function.update_noteq hx]
            exact hrnd x
      · intro d hd
        have hd0 : d ∈ s.clients := hd
        constructor
        · intro p hp
          rcases mem_aset_nodup hknd hp with h1 | h1
          · rw [h1]
            simp only []
            by_cases hdc : d = c
            · subst hdc
              simp only [Function.update_same]
              constructor
              · intro hh
                exact absurd hh hmemnd.not_mem_erase
              · intro hh
                exact absurd hh (hrnd d).not_mem_erase
            · simp only [Function.update_noteq hdc]
              rw [List.mem_erase_of_ne hdc]
              exact (hinv d hd0).1 (r, mem) (alookup_mem hl)
          · obtain ⟨hpmem, hpne⟩ := h1
            by_cases hdc : d = c
            · subst hdc
              simp only [Function.update_same]
              rw [List.mem_erase_of_ne hpne]
              exact (hinv d hd0).1 p hpmem
            · simp only [Function.update_noteq hdc]
              exact (hinv d hd0).1 p hpmem
        · intro r2 hr2
          by_cases hdc : d = c
          · subst hdc
            simp only [Function.update_same] at hr2
            have hr2r : r2 ≠ r := ((hrnd d).mem_erase_iff.1 hr2).1
            rw [alookup_aset_ne _ _ _ _ hr2r]
            exact (hinv d hd0).2 r2 (List.mem_of_mem_erase hr2)
          · simp only [Function.update_noteq hdc] at hr2
            by_cases hr2r : r2 = r
            · subst hr2r
              rw [alookup_aset_self]
              rfl
            · rw [alookup_aset_ne _ _ _ _ hr2r]
              exact (hinv d hd0).2 r2 hr2

theorem registerClient_pres2 (s : HubState) (c : ClientId)
    (hwf : WF2 s) (hinv : Inv2 s) (hfresh : Fresh s c) :
    WF2 (registerClient s c) ∧ Inv2 (registerClient s c) := by
  obtain ⟨hcnd, hknd, hmnd, hrnd⟩ := hwf
  obtain ⟨-, hrooms0, -, hnoroom, -⟩ := hfresh
  constructor
  · rw [WF2, registerClient_cs, registerClient_clients, registerClient_rooms]
    exact ⟨nodup_insertIfAbsent c hcnd, hknd, hmnd, hrnd⟩
  · intro d hd
    rw [registerClient_clients] at hd
    rw [Inv2, registerClient_cs, registerClient_rooms] at *
    rcases mem_insertIfAbsent.1 hd with hdc | hdc
    · subst hdc
      constructor
      · intro p hp
        rw [hrooms0]
        simp only [List.not_mem_nil, iff_false]
        exact hnoroom p hp
      · intro r hr
        rw [hrooms0] at hr
        exact absurd hr (List.not_mem_nil r)
    · exact hinv d hdc

/-- Pure version of `unregisterClient`'s room-cleanup loop, acting on the
room index alone (each iteration's effect depends only on the index). -/
def unregRoomsStep (c : ClientId) (rs : List (String × List ClientId)) (r : String) :
    List (String × List ClientId) :=
  match alookup rs r with
  | none => rs
  | some mem =>
    let mem' := mem.erase c
    if mem' = [] then aerase rs r else aset rs r mem'

theorem unregStep_rooms (c : ClientId) (acc : HubState) (r : String) :
    (unregStep c acc r).rooms = unregRoomsStep c acc.rooms r := by
  unfold unregStep unregRoomsStep
  split
  · rfl
  · simp only []
    split <;> rfl

theorem unregFold_rooms_pure (c : ClientId) :
    ∀ (l : List String) (acc : HubState),
      (l.foldl (unregStep c) acc).rooms = l.foldl (unregRoomsStep c) acc.rooms
  | [], _ => rfl
  | r :: t, acc => by
    rw [List.foldl_cons, List.foldl_cons, unregFold_rooms_pure c t (unregStep c acc r),
      unregStep_rooms]

/-- One pure cleanup step keeps the index well formed and keeps the C2
clauses valid for every client in `X` (a set that does not contain the
client being removed). -/
theorem unregRoomsStep_pres (c : ClientId) (cs2 : ClientId → ClientState)
    (X : List ClientId) (hX : c ∉ X) (rs : List (String × List ClientId)) (r : String)
    (hknd : (rs.map Prod.fst).Nodup) (hmnd : ∀ p ∈ rs, p.2.Nodup)
    (hinv : ∀ d ∈ X, (∀ p ∈ rs, (d ∈ p.2 ↔ p.1 ∈ (cs2 d).rooms)) ∧
      (∀ r2 ∈ (cs2 d).rooms, (alookup rs r2).isSome = true)) :
    ((unregRoomsStep c rs r).map Prod.fst).Nodup ∧
    (∀ p ∈ unregRoomsStep c rs r, p.2.Nodup) ∧
    (∀ d ∈ X, (∀ p ∈ unregRoomsStep c rs r, (d ∈ p.2 ↔ p.1 ∈ (cs2 d).rooms)) ∧
      (∀ r2 ∈ (cs2 d).rooms, (alookup (unregRoomsStep c rs r) r2).isSome = true)) := by
  unfold unregRoomsStep
  split
  · exact ⟨hknd, hmnd, hinv⟩
  · rename_i mem heq
    simp only []
    have hmemnd : mem.Nodup := hmnd (r, mem) (alookup_mem heq)
    split
    · rename_i hemp
      refine ⟨keys_aerase_nodup _ _ hknd, ?_, ?_⟩
      · intro p hp
        exact hmnd p (mem_aerase hp)
      · intro d hd
        have hdc : d ≠ c := fun hh => hX (hh ▸ hd)
        refine ⟨?_, ?_⟩
        · intro p hp
          exact (hinv d hd).1 p (mem_aerase hp)
        · intro r2 hr2
          by_cases hr2r : r2 = r
          · subst hr2r
            have hdmem : d ∈ mem := ((hinv d hd).1 (r2, mem) (alookup_mem heq)).2 hr2
            have : d ∈ mem.erase c := (List.mem_erase_of_ne hdc).2 hdmem
            rw [hemp] at this
            exact absurd this (List.not_mem_nil d)
          · rw [alookup_aerase_ne _ _ _ hr2r]
            exact (hinv d hd).2 r2 hr2
    · rename_i hemp
      refine ⟨keys_aset_nodup _ _ _ hknd, ?_, ?_⟩
      · intro p hp
        rcases mem_aset hp with h1 | h1
        · rw [h1]
          exact hmemnd.erase c
        · exact hmnd p h1
      · intro d hd
        have hdc : d ≠ c := fun hh => hX (hh ▸ hd)
        refine ⟨?_, ?_⟩
        · intro p hp
          rcases mem_aset_nodup hknd hp with h1 | h1
          · rw [h1]
            simp only []
            rw [List.mem_erase_of_ne hdc]
            exact (hinv d hd).1 (r, mem) (alookup_mem heq)
          · exact (hinv d hd).1 p h1.1
        · intro r2 hr2
          by_cases hr2r : r2 = r
          · subst hr2r
            rw [alookup_aset_self]
            rfl
          · rw [alookup_aset_ne _ _ _ _ hr2r]
            exact (hinv d hd).2 r2 hr2

theorem unregRoomsFold_pres (c : ClientId) (cs2 : ClientId → ClientState)
    (X : List ClientId) (hX : c ∉ X) :
    ∀ (l : List String) (rs : List (String × List ClientId)),
      (rs.map Prod.fst).Nodup → (∀ p ∈ rs, p.2.Nodup) →
      (∀ d ∈ X, (∀ p ∈ rs, (d ∈ p.2 ↔ p.1 ∈ (cs2 d).rooms)) ∧
        (∀ r2 ∈ (cs2 d).rooms, (alookup rs r2).isSome = true)) →
      ((l.foldl (unregRoomsStep c) rs).map Prod.fst).Nodup ∧
      (∀ p ∈ l.foldl (unregRoomsStep c) rs, p.2.Nodup) ∧
      (∀ d ∈ X, (∀ p ∈ l.foldl (unregRoomsStep c) rs, (d ∈ p.2 ↔ p.1 ∈ (cs2 d).rooms)) ∧
        (∀ r2 ∈ (cs2 d).rooms, (alookup (l.foldl (unregRoomsStep c) rs) r2).isSome = true))
  | [], rs, h1, h2, h3 => ⟨h1, h2, h3⟩
  | r :: t, rs, h1, h2, h3 => by
    rw [List.foldl_cons]
    obtain ⟨g1, g2, g3⟩ := unregRoomsStep_pres c cs2 X hX rs r h1 h2 h3
    exact unregRoomsFold_pres c cs2 X hX t (unregRoomsStep c rs r) g1 g2 g3

theorem unregisterClient_rooms (s : HubState) (c : ClientId) :
    (unregisterClient s c).rooms = ((s.cs c).rooms).foldl (unregRoomsStep c) s.rooms := by
  unfold unregisterClient
  simp only []
  by_cases hb : c ∈ s.clients
  · rw [if_pos hb]
    have hlist : (Function.update s.cs c (closeChan (s.cs c)) c).rooms = (s.cs c).rooms := by
      simp only [Function.update_same]
      exact (closeChan_meta (s.cs c)).2.2.1
    split
    · rw [unregFold_rooms_pure]
      simp only [hlist]
    · simp only []
      rw [unregFold_rooms_pure]
      simp only [hlist]
  · rw [if_neg hb]
    split
    · rw [unregFold_rooms_pure]
    · simp only []
      rw [unregFold_rooms_pure]

theorem unregisterClient_pres2 (s : HubState) (c : ClientId)
    (hwf : WF2 s) (hinv : Inv2 s) :
    WF2 (unregisterClient s c) ∧ Inv2 (unregisterClient s c) := by
  obtain ⟨hcnd, hknd, hmnd, hrnd⟩ := hwf
  have hcs := unregisterClient_cs s c
  have hclients := unregisterClient_clients s c
  have hrooms := unregisterClient_rooms s c
  by_cases hb : c ∈ s.clients
  · rw [if_pos hb] at hcs hclients
    have hX : c ∉ s.clients.erase c := hcnd.not_mem_erase
    have hfold := unregRoomsFold_pres c (Function.update s.cs c (closeChan (s.cs c)))
      (s.clients.erase c) hX ((s.cs c).rooms) s.rooms hknd hmnd (by
        intro d hd
        have hdc : d ≠ c := fun hh => hX (hh ▸ hd)
        have hd0 : d ∈ s.clients := List.mem_of_mem_erase hd
        constructor
        · intro p hp
          rw [Function.update_noteq hdc]
          exact (hinv d hd0).1 p hp
        · intro r2 hr2
          rw [Function.update_noteq hdc] at hr2
          exact (hinv d hd0).2 r2 hr2)
    constructor
    · refine ⟨?_, ?_, ?_, ?_⟩
      · rw [hclients]
        exact hcnd.erase c
      · rw [hrooms]
        exact hfold.1
      · rw [hrooms]
        exact hfold.2.1
      · intro x
        rw [hcs]
        by_cases hx : x = c
        · subst hx
          simp only [Function.update_same]
          rw [(closeChan_meta _).2.2.1]
          exact hrnd x
        · rw [Function.update_noteq hx]
          exact hrnd x
    · intro d hd
      rw [hclients] at hd
      have hfd := hfold.2.2 d hd
      constructor
      · intro p hp
        rw [hrooms] at hp
        rw [hcs]
        exact hfd.1 p hp
      · intro r2 hr2
        rw [hcs] at hr2
        rw [hrooms]
        exact hfd.2 r2 hr2
  · rw [if_neg hb] at hcs hclients
    have hfold := unregRoomsFold_pres c s.cs s.clients hb ((s.cs c).rooms) s.rooms hknd hmnd
      (fun d hd => hinv d hd)
    constructor
    · refine ⟨?_, ?_, ?_, ?_⟩
      · rw [hclients]
        exact hcnd
      · rw [hrooms]
        exact hfold.1
      · rw [hrooms]
        exact hfold.2.1
      · intro x
        rw [hcs]
        exact hrnd x
    · intro d hd
      rw [hclients] at hd
      have hfd := hfold.2.2 d hd
      constructor
      · intro p hp
        rw [hrooms] at hp
        rw [hcs]
        exact hfd.1 p hp
      · intro r2 hr2
        rw [hcs] at hr2
        rw [hrooms]
        exact hfd.2 r2 hr2

theorem ballFold_rooms (m : Msg) (l : List ClientId) (acc : HubState) :
    (l.foldl (ballStep m) acc).rooms = acc.rooms :=
  foldl_preserve (P := fun b => b.rooms = acc.rooms)
    (fun b a hb => (ballStep_rooms m b a).trans hb) l acc rfl

theorem ballFold_cs_rooms (m : Msg) (l : List ClientId) (acc : HubState) (x : ClientId) :
    ((l.foldl (ballStep m) acc).cs x).rooms = (acc.cs x).rooms :=
  foldl_preserve (P := fun b => (b.cs x).rooms = (acc.cs x).rooms)
    (fun b a hb => (ballStep_cs_rooms m b a x).trans hb) l acc rfl

theorem ballFold_mem_clients (m : Msg) (l : List ClientId) (acc : HubState) (x : ClientId) :
    x ∈ (l.foldl (ballStep m) acc).clients → x ∈ acc.clients :=
  foldl_preserve (P := fun b => x ∈ b.clients → x ∈ acc.clients)
    (fun b a hb hx => hb (ballStep_clients_sub m b a x hx)) l acc id

theorem ballFold_nodup (m : Msg) (l : List ClientId) (acc : HubState)
    (h : acc.clients.Nodup) : (l.foldl (ballStep m) acc).clients.Nodup :=
  foldl_preserve (P := fun b => b.clients.Nodup)
    (fun b a hb => ballStep_clients_nodup m b a hb) l acc h

theorem broadcastToUser_clients (s : HubState) (u : String) (m : Msg) :
    (broadcastToUser s u m).clients = s.clients := by
  rcases hl : alookup s.userConns u with _ | conns
  · rw [broadcastToUser_none s u m hl]
  · rw [broadcastToUser_some s u m conns hl]

theorem broadcastToUser_rooms (s : HubState) (u : String) (m : Msg) :
    (broadcastToUser s u m).rooms = s.rooms := by
  rcases hl : alookup s.userConns u with _ | conns
  · rw [broadcastToUser_none s u m hl]
  · rw [broadcastToUser_some s u m conns hl]

theorem broadcastToUser_cs_rooms (s : HubState) (u : String) (m : Msg) (x : ClientId) :
    ((broadcastToUser s u m).cs x).rooms = (s.cs x).rooms := by
  rcases hl : alookup s.userConns u with _ | conns
  · rw [broadcastToUser_none s u m hl]
  · rw [broadcastToUser_some s u m conns hl]
    exact foldl_preserve (P := fun acc : BtuAcc => (acc.cs x).rooms = (s.cs x).rooms)
      (fun b i hb => (btuStep_cs_fields m b i x).2.2.1.trans hb)
      (List.range conns.length) ⟨conns, conns.length, s.cs⟩ rfl

/-- Transport of the C2 invariant along operations that do not touch the
room index, any connection's room set, and only shrink the client set. -/
theorem pres2_of_frame (s t : HubState) (hrooms : t.rooms = s.rooms)
    (hcsrooms : ∀ x, (t.cs x).rooms = (s.cs x).rooms)
    (hclisub : ∀ x, x ∈ t.clients → x ∈ s.clients)
    (hclind : t.clients.Nodup)
    (hwf : WF2 s) (hinv : Inv2 s) : WF2 t ∧ Inv2 t := by
  obtain ⟨-, hknd, hmnd, hrnd⟩ := hwf
  constructor
  · refine ⟨hclind, ?_, ?_, ?_⟩
    · rw [hrooms]
      exact hknd
    · rw [hrooms]
      exact hmnd
    · intro x
      rw [hcsrooms x]
      exact hrnd x
  · intro d hd
    have hd0 := hclisub d hd
    constructor
    · intro p hp
      rw [hrooms] at hp
      rw [hcsrooms d]
      exact (hinv d hd0).1 p hp
    · intro r2 hr2
      rw [hcsrooms d] at hr2
      rw [hrooms]
      exact (hinv d hd0).2 r2 hr2

/-- A single allowed operation preserves well-formedness and the C2
invariant. -/
theorem applyOp_pres2 (s : HubState) (op : HubOp) (hwf : WF2 s) (hinv : Inv2 s)
    (hallow : allowC2 op = true) (hreg : RegOK s op) :
    WF2 (applyOp s op) ∧ Inv2 (applyOp s op) := by
  cases op with
  | register c => exact registerClient_pres2 s c hwf hinv hreg
  | unregister c => exact unregisterClient_pres2 s c hwf hinv
  | join c r => exact joinRoom_pres2 s c r hwf hinv
  | leave c r => exact leaveRoom_pres2 s c r hwf hinv
  | broadcastAll m =>
    exact pres2_of_frame s (broadcastToAll s m) (ballFold_rooms m s.clients s)
      (ballFold_cs_rooms m s.clients s) (ballFold_mem_clients m s.clients s)
      (ballFold_nodup m s.clients s hwf.1) hwf hinv
  | keepalive =>
    exact pres2_of_frame s (pingClients s) (ballFold_rooms Msg.ping s.clients s)
      (ballFold_cs_rooms Msg.ping s.clients s) (ballFold_mem_clients Msg.ping s.clients s)
      (ballFold_nodup Msg.ping s.clients s hwf.1) hwf hinv
  | broadcastUser u m =>
    refine pres2_of_frame s (broadcastToUser s u m) (broadcastToUser_rooms s u m)
      (broadcastToUser_cs_rooms s u m) ?_ ?_ hwf hinv
    · intro x hx
      rw [broadcastToUser_clients s u m] at hx
      exact hx
    · rw [broadcastToUser_clients s u m]
      exact hwf.1
  | broadcastRoom r m => simp [allowC2] at hallow

theorem applyOps_pres2 : ∀ (ops : List HubOp) (s : HubState), WF2 s → Inv2 s →
    SeqOK allowC2 s ops → WF2 (applyOps s ops) ∧ Inv2 (applyOps s ops)
  | [], _, hwf, hinv, _ => ⟨hwf, hinv⟩
  | op :: rest, s, hwf, hinv, hs =>
    applyOps_pres2 rest (applyOp s op) (applyOp_pres2 s op hwf hinv hs.1 hs.2.1).1
      (applyOp_pres2 s op hwf hinv hs.1 hs.2.1).2 hs.2.2

/-- C2 (amended): the membership biconditional (for registered connections)
holds after any run of Register (fresh), Unregister, JoinRoom, LeaveRoom,
BroadcastAll, BroadcastUser and keepalive operations; only `BroadcastRoom`
(whose eviction is excluded here, see the counterexample) can break it. -/
theorem C2_amended_invariant (s : HubState) (ops : List HubOp)
    (hwf : WF2 s) (hinv : Inv2 s) (hs : SeqOK allowC2 s ops) :
    WF2 (applyOps s ops) ∧ Inv2 (applyOps s ops) :=
  applyOps_pres2 ops s hwf hinv hs

/-- C2 witness on a run exercising join/leave/register/unregister and the
allowed broadcast paths. -/
theorem C2_amended_invariant_witness :
    WF2 (applyOps hubA [HubOp.register 0, HubOp.join 0 "g1", HubOp.register 1,
      HubOp.join 1 "g1", HubOp.leave 0 "g1", HubOp.broadcastAll (Msg.payload "m1"),
      HubOp.broadcastUser "u" (Msg.payload "m2"), HubOp.keepalive, HubOp.unregister 1]) ∧
    Inv2 (applyOps hubA [HubOp.register 0, HubOp.join 0 "g1", HubOp.register 1,
      HubOp.join 1 "g1", HubOp.leave 0 "g1", HubOp.broadcastAll (Msg.payload "m1"),
      HubOp.broadcastUser "u" (Msg.payload "m2"), HubOp.keepalive, HubOp.unregister 1]) :=
  C2_amended_invariant hubA [HubOp.register 0, HubOp.join 0 "g1", HubOp.register 1,
      HubOp.join 1 "g1", HubOp.leave 0 "g1", HubOp.broadcastAll (Msg.payload "m1"),
      HubOp.broadcastUser "u" (Msg.payload "m2"), HubOp.keepalive, HubOp.unregister 1]
    ⟨List.nodup_nil, List.nodup_nil, fun p hp => absurd hp (List.not_mem_nil p),
      fun c => List.nodup_nil⟩
    (fun c hc => absurd hc (List.not_mem_nil c))
    (by decide)

/- ------------------------------------------------------------------ -/
/- C4: the user-index invariant, on the paths that maintain it.        -/
/- ------------------------------------------------------------------ -/

/-- Well-formedness of the user-connection index: duplicate-free client
list and keys, and every listed connection is registered under its own
non-empty user id; conversely every registered connection with a user id is
listed under that id. -/
def UCwf (s : HubState) : Prop :=
  s.clients.Nodup ∧ (s.userConns.map Prod.fst).Nodup ∧
  (∀ p ∈ s.userConns, p.2.Nodup ∧ p.1 ≠ "" ∧
    ∀ c ∈ p.2, (s.cs c).userId = p.1 ∧ c ∈ s.clients) ∧
  (∀ c ∈ s.clients, (s.cs c).userId ≠ "" →
    ∃ p ∈ s.userConns, p.1 = (s.cs c).userId ∧ c ∈ p.2)

/-- Claim C4's biconditional: a connection appears somewhere in the user
index iff it is registered with a non-empty user id. -/
def Inv4 (s : HubState) : Prop :=
  ∀ c : ClientId, (∃ p ∈ s.userConns, c ∈ p.2) ↔
    (c ∈ s.clients ∧ (s.cs c).userId ≠ "")

theorem UCwf_imp_Inv4 (s : HubState) (h : UCwf s) : Inv4 s := by
  intro c
  constructor
  · rintro ⟨p, hp, hcp⟩
    have h3 := (h.2.2.1 p hp).2.2 c hcp
    refine ⟨h3.2, ?_⟩
    rw [h3.1]
    exact (h.2.2.1 p hp).2.1
  · rintro ⟨hcl, hne⟩
    obtain ⟨p, hp, -, hmem⟩ := h.2.2.2 c hcl hne
    exact ⟨p, hp, hmem⟩

/-- The operations kept by the amended C4: register, unregister, join,
leave and the room-broadcast path (whose eviction touches neither the
global set nor the user index). -/
def allowC4 : HubOp → Bool
  | .register _ => true
  | .unregister _ => true
  | .join _ _ => true
  | .leave _ _ => true
  | .broadcastRoom _ _ => true
  | _ => false

theorem broadcastToRoom_clients (s : HubState) (r : String) (m : Msg) :
    (broadcastToRoom s r m).clients = s.clients := by
  unfold broadcastToRoom
  split
  · rfl
  · exact foldl_preserve (P := fun b => b.clients = s.clients)
      (fun b a hb => (broomStep_clients r m b a).trans hb) _ s rfl

theorem broadcastToRoom_cs_userId (s : HubState) (r : String) (m : Msg) (x : ClientId) :
    ((broadcastToRoom s r m).cs x).userId = (s.cs x).userId := by
  unfold broadcastToRoom
  split
  · rfl
  · exact foldl_preserve (P := fun b => (b.cs x).userId = (s.cs x).userId)
      (fun b a hb => (broomStep_cs_userId r m b a x).trans hb) _ s rfl

/-- Transport of `UCwf` along operations that leave the client set, the
user index, and every user id unchanged. -/
theorem pres4_of_frame (s t : HubState) (hcl : t.clients = s.clients)
    (huc : t.userConns = s.userConns)
    (huid : ∀ x, (t.cs x).userId = (s.cs x).userId) (h : UCwf s) : UCwf t := by
  obtain ⟨h1, h2, h3, h4⟩ := h
  refine ⟨?_, ?_, ?_, ?_⟩
  · rw [hcl]
    exact h1
  · rw [huc]
    exact h2
  · intro p hp
    rw [huc] at hp
    refine ⟨(h3 p hp).1, (h3 p hp).2.1, ?_⟩
    intro d hd
    rw [huid d, hcl]
    exact (h3 p hp).2.2 d hd
  · intro d hd hne
    rw [hcl] at hd
    rw [huid d] at hne
    obtain ⟨p, hp, hkey, hmem⟩ := h4 d hd hne
    refine ⟨p, ?_, ?_, hmem⟩
    · rw [huc]
      exact hp
    · rw [huid d]
      exact hkey

theorem registerClient_userConns (s : HubState) (c : ClientId) :
    (registerClient s c).userConns =
      (if (s.cs c).userId = "" then s.userConns
       else aset s.userConns ((s.cs c).userId)
         ((alookup s.userConns ((s.cs c).userId)).getD [] ++ [c])) := by
  unfold registerClient
  simp only []
  split
  · rfl
  · rfl

theorem registerClient_pres4 (s : HubState) (c : ClientId) (h : UCwf s)
    (hfresh : Fresh s c) : UCwf (registerClient s c) := by
  obtain ⟨h1, h2, h3, h4⟩ := h
  obtain ⟨hnotin, -, -, -, hnouc⟩ := hfresh
  rw [UCwf, registerClient_cs, registerClient_clients, registerClient_userConns]
  by_cases huid : (s.cs c).userId = ""
  · rw [if_pos huid]
    refine ⟨nodup_insertIfAbsent c h1, h2, ?_, ?_⟩
    · intro p hp
      refine ⟨(h3 p hp).1, (h3 p hp).2.1, ?_⟩
      intro d hd
      exact ⟨((h3 p hp).2.2 d hd).1,
        mem_insertIfAbsent.2 (Or.inr ((h3 p hp).2.2 d hd).2)⟩
    · intro d hd hne
      rcases mem_insertIfAbsent.1 hd with hdc | hdc
      · subst hdc
        exact absurd huid hne
      · exact h4 d hdc hne
  · rw [if_neg huid]
    have hL : ((alookup s.userConns ((s.cs c).userId)).getD []).Nodup ∧
        c ∉ (alookup s.userConns ((s.cs c).userId)).getD [] ∧
        (∀ d ∈ (alookup s.userConns ((s.cs c).userId)).getD [],
          (s.cs d).userId = (s.cs c).userId ∧ d ∈ s.clients) := by
      rcases hlook : alookup s.userConns ((s.cs c).userId) with _ | conns
      · simp
      · have hpmem := alookup_mem hlook
        simp only [Option.getD_some]
        exact ⟨(h3 _ hpmem).1, hnouc _ hpmem, fun d hd => ((h3 _ hpmem).2.2 d hd)⟩
    have happnd : ((alookup s.userConns ((s.cs c).userId)).getD [] ++ [c]).Nodup := by
      have : (alookup s.userConns ((s.cs c).userId)).getD [] ++ [c]
          = insertIfAbsent c ((alookup s.userConns ((s.cs c).userId)).getD []) := by
        rw [insertIfAbsent, if_neg hL.2.1]
      rw [this]
      exact nodup_insertIfAbsent c hL.1
    refine ⟨nodup_insertIfAbsent c h1, keys_aset_nodup _ _ _ h2, ?_, ?_⟩
    · intro p hp
      rcases mem_aset_nodup h2 hp with hcase | hcase
      · rw [hcase]
        refine ⟨happnd, huid, ?_⟩
        intro d hd
        rcases List.mem_append.1 hd with hd2 | hd2
        · exact ⟨(hL.2.2 d hd2).1, mem_insertIfAbsent.2 (Or.inr (hL.2.2 d hd2).2)⟩
        · simp only [List.mem_singleton] at hd2
          subst hd2
          exact ⟨rfl, self_mem_insertIfAbsent d _⟩
      · obtain ⟨hpmem, -⟩ := hcase
        refine ⟨(h3 p hpmem).1, (h3 p hpmem).2.1, ?_⟩
        intro d hd
        exact ⟨((h3 p hpmem).2.2 d hd).1,
          mem_insertIfAbsent.2 (Or.inr ((h3 p hpmem).2.2 d hd).2)⟩
    · intro d hd hne
      rcases mem_insertIfAbsent.1 hd with hdc | hdc
      · subst hdc
        refine ⟨((s.cs d).userId, (alookup s.userConns ((s.cs d).userId)).getD [] ++ [d]),
          self_mem_aset _ _ _, rfl, by simp⟩
      · obtain ⟨p, hp, hkey, hmem⟩ := h4 d hdc hne
        by_cases hpk : p.1 = (s.cs c).userId
        · have hlook2 : alookup s.userConns p.1 = some p.2 := alookup_eq_of_mem h2 hp
          refine ⟨((s.cs c).userId, (alookup s.userConns ((s.cs c).userId)).getD [] ++ [c]),
            self_mem_aset _ _ _, ?_, ?_⟩
          · rw [hkey] at hpk
            rw [hpk]
          · rw [← hpk, hlook2]
            simp only [Option.getD_some]
            exact List.mem_append.2 (Or.inl hmem)
        · exact ⟨p, mem_aset_of_ne hp hpk, hkey, hmem⟩

/-- Correlated characterization: whether `unregisterClient` rewrites the
user index is decided by the client's own (unchanged) user id. -/
theorem unregisterClient_userConns_cases (s : HubState) (c : ClientId) :
    ((s.cs c).userId = "" ∧ (unregisterClient s c).userConns = s.userConns) ∨
    ((s.cs c).userId ≠ "" ∧
      (unregisterClient s c).userConns = removeUC s.userConns ((s.cs c).userId) c) := by
  unfold unregisterClient
  simp only []
  by_cases hb : c ∈ s.clients
  · rw [if_pos hb]
    split
    · rename_i hcond
      left
      rw [unregFold_cs] at hcond
      simp only [Function.update_same] at hcond
      rw [(closeChan_meta (s.cs c)).1] at hcond
      refine ⟨hcond, ?_⟩
      rw [unregFold_userConns]
    · rename_i hcond
      right
      rw [unregFold_cs] at hcond
      simp only [Function.update_same] at hcond
      rw [(closeChan_meta (s.cs c)).1] at hcond
      refine ⟨hcond, ?_⟩
      simp only []
      rw [unregFold_userConns, unregFold_cs]
      simp only [Function.update_same]
      rw [(closeChan_meta (s.cs c)).1]
  · rw [if_neg hb]
    split
    · rename_i hcond
      left
      rw [unregFold_cs] at hcond
      exact ⟨hcond, by rw [unregFold_userConns]⟩
    · rename_i hcond
      right
      rw [unregFold_cs] at hcond
      refine ⟨hcond, ?_⟩
      simp only []
      rw [unregFold_userConns, unregFold_cs]

theorem unregisterClient_pres4 (s : HubState) (c : ClientId) (h : UCwf s) :
    UCwf (unregisterClient s c) := by
  obtain ⟨h1, h2, h3, h4⟩ := h
  have hcs := unregisterClient_cs s c
  have hclients := unregisterClient_clients s c
  have hne_of_mem : ∀ d, d ∈ (unregisterClient s c).clients → d ∈ s.clients ∧
      (c ∈ s.clients → d ≠ c) := by
    intro d hd
    rw [hclients] at hd
    by_cases hb : c ∈ s.clients
    · rw [if_pos hb] at hd
      exact ⟨List.mem_of_mem_erase hd,
        fun _ hh => h1.not_mem_erase (show c ∈ s.clients.erase c from hh ▸ hd)⟩
    · rw [if_neg hb] at hd
      exact ⟨hd, fun hcc _ => hb hcc⟩
  have hcs_uid : ∀ d, ((unregisterClient s c).cs d).userId = (s.cs d).userId := by
    intro d
    rw [hcs]
    by_cases hb : c ∈ s.clients
    · rw [if_pos hb]
      by_cases hdc : d = c
      · subst hdc
        simp only [Function.update_same]
        exact (closeChan_meta (s.cs d)).1
      · rw [Function.update_noteq hdc]
    · rw [if_neg hb]
  have hclnd : (unregisterClient s c).clients.Nodup := by
    rw [hclients]
    by_cases hb : c ∈ s.clients
    · rw [if_pos hb]
      exact h1.erase c
    · rw [if_neg hb]
      exact h1
  have hmem_clients : ∀ d, d ∈ s.clients → d ≠ c → d ∈ (unregisterClient s c).clients := by
    intro d hd hdc
    rw [hclients]
    by_cases hb : c ∈ s.clients
    · rw [if_pos hb]
      exact (List.mem_erase_of_ne hdc).2 hd
    · rw [if_neg hb]
      exact hd
  rcases unregisterClient_userConns_cases s c with ⟨huid, huc⟩ | ⟨huid, huc⟩
  · -- empty user id: index untouched, and c is on no user's list
    have hcnot : ∀ p ∈ s.userConns, c ∉ p.2 := by
      intro p hp hcp
      exact (h3 p hp).2.1 (((h3 p hp).2.2 c hcp).1 ▸ huid)
    refine ⟨hclnd, by rw [huc]; exact h2, ?_, ?_⟩
    · intro p hp
      rw [huc] at hp
      refine ⟨(h3 p hp).1, (h3 p hp).2.1, ?_⟩
      intro d hd
      have hdc : d ≠ c := fun hh => hcnot p hp (hh ▸ hd)
      rw [hcs_uid d]
      exact ⟨((h3 p hp).2.2 d hd).1,
        hmem_clients d ((h3 p hp).2.2 d hd).2 hdc⟩
    · intro d hd hdn
      obtain ⟨hd0, -⟩ := hne_of_mem d hd
      rw [hcs_uid d] at hdn
      obtain ⟨p, hp, hkey, hmem⟩ := h4 d hd0 hdn
      rw [huc, hcs_uid d]
      exact ⟨p, hp, hkey, hmem⟩
  · -- non-empty user id: one removeUserConnection on the index
    rcases hlook : alookup s.userConns ((s.cs c).userId) with _ | conns
    · -- user id not a key: removeUC is a no-op, and c is on no list
      rw [removeUC, hlook] at huc
      have hcnot : ∀ p ∈ s.userConns, c ∉ p.2 := by
        intro p hp hcp
        have hkey : p.1 = (s.cs c).userId := ((h3 p hp).2.2 c hcp).1.symm ▸ rfl
        have : alookup s.userConns p.1 = some p.2 := alookup_eq_of_mem h2 hp
        rw [hkey, hlook] at this
        exact Option.noConfusion this
      refine ⟨hclnd, by rw [huc]; exact h2, ?_, ?_⟩
      · intro p hp
        rw [huc] at hp
        refine ⟨(h3 p hp).1, (h3 p hp).2.1, ?_⟩
        intro d hd
        have hdc : d ≠ c := fun hh => hcnot p hp (hh ▸ hd)
        rw [hcs_uid d]
        exact ⟨((h3 p hp).2.2 d hd).1,
          hmem_clients d ((h3 p hp).2.2 d hd).2 hdc⟩
      · intro d hd hdn
        obtain ⟨hd0, -⟩ := hne_of_mem d hd
        rw [hcs_uid d] at hdn
        obtain ⟨p, hp, hkey, hmem⟩ := h4 d hd0 hdn
        rw [huc, hcs_uid d]
        exact ⟨p, hp, hkey, hmem⟩
    · -- user id has an entry: c's first occurrence is erased from it
      have hconns := h3 ((s.cs c).userId, conns) (alookup_mem hlook)
      rw [removeUC, hlook] at huc
      simp only [] at huc
      have hdc_of_mem : ∀ d ∈ conns.erase c, d ≠ c :=
        fun d hd hh => hconns.1.not_mem_erase (hh ▸ hd)
      refine ⟨hclnd, ?_, ?_, ?_⟩
      · split at huc
        · rw [huc]
          exact keys_aerase_nodup _ _ h2
        · rw [huc]
          exact keys_aset_nodup _ _ _ h2
      · intro p hp
        rw [huc] at hp
        split at hp
        · obtain ⟨hpmem, -⟩ := mem_aerase_nodup h2 hp
          refine ⟨(h3 p hpmem).1, (h3 p hpmem).2.1, ?_⟩
          intro d hd
          have hdc : d ≠ c := by
            intro hh
            subst hh
            have hkey : p.1 = (s.cs d).userId := ((h3 p hpmem).2.2 d hd).1.symm
            exact (mem_aerase_nodup h2 hp).2 (by rw [hkey])
          rw [hcs_uid d]
          exact ⟨((h3 p hpmem).2.2 d hd).1,
            hmem_clients d ((h3 p hpmem).2.2 d hd).2 hdc⟩
        · rcases mem_aset_nodup h2 hp with hcase | hcase
          · rw [hcase]
            refine ⟨hconns.1.erase c, hconns.2.1, ?_⟩
            intro d hd
            have hdc : d ≠ c := hdc_of_mem d hd
            have hd2 := hconns.2.2 d (List.mem_of_mem_erase hd)
            rw [hcs_uid d]
            exact ⟨hd2.1, hmem_clients d hd2.2 hdc⟩
          · obtain ⟨hpmem, hpne⟩ := hcase
            refine ⟨(h3 p hpmem).1, (h3 p hpmem).2.1, ?_⟩
            intro d hd
            have hdc : d ≠ c := by
              intro hh
              subst hh
              exact hpne (((h3 p hpmem).2.2 d hd).1.symm ▸ rfl)
            rw [hcs_uid d]
            exact ⟨((h3 p hpmem).2.2 d hd).1,
              hmem_clients d ((h3 p hpmem).2.2 d hd).2 hdc⟩
      · intro d hd hdn
        obtain ⟨hd0, hdcm⟩ := hne_of_mem d hd
        rw [hcs_uid d] at hdn
        obtain ⟨p, hp, hkey, hmem⟩ := h4 d hd0 hdn
        have hdc : d ≠ c := by
          intro hh
          subst hh
          -- d = c is registered, so c ∈ s.clients, so d ≠ c: contradiction
          exact hdcm hd0 rfl
        rw [huc, hcs_uid d]
        by_cases hpk : p.1 = (s.cs c).userId
        · have hlook2 : alookup s.userConns p.1 = some p.2 := alookup_eq_of_mem h2 hp
          rw [hpk, hlook] at hlook2
          injection hlook2 with hpc
          have hm2 : d ∈ conns := by rw [hpc]; exact hmem
          have hdmem : d ∈ conns.erase c := (List.mem_erase_of_ne hdc).2 hm2
          split
          · rename_i hlen
            rw [List.length_eq_zero.1 hlen] at hdmem
            exact absurd hdmem (List.not_mem_nil d)
          · refine ⟨((s.cs c).userId, conns.erase c), self_mem_aset _ _ _, ?_, hdmem⟩
            rw [← hpk]
            exact hkey
        · split
          · exact ⟨p, mem_aerase_of_ne hp hpk, hkey, hmem⟩
          · exact ⟨p, mem_aset_of_ne hp hpk, hkey, hmem⟩

/-- A single allowed operation preserves the user-index well-formedness. -/
theorem applyOp_pres4 (s : HubState) (op : HubOp) (h : UCwf s)
    (hallow : allowC4 op = true) (hreg : RegOK s op) : UCwf (applyOp s op) := by
  cases op with
  | register c => exact registerClient_pres4 s c h hreg
  | unregister c => exact unregisterClient_pres4 s c h
  | join c r =>
    exact pres4_of_frame s (joinRoom s c r) (joinRoom_clients s c r)
      (joinRoom_userConns s c r) (fun x => (joinRoom_cs_chan s c r x).2.2.2) h
  | leave c r =>
    exact pres4_of_frame s (leaveRoom s c r) (leaveRoom_clients s c r)
      (leaveRoom_userConns s c r) (fun x => (leaveRoom_cs_chan s c r x).2.2.2) h
  | broadcastRoom r m =>
    exact pres4_of_frame s (broadcastToRoom s r m) (broadcastToRoom_clients s r m)
      (broadcastToRoom_userConns s r m) (broadcastToRoom_cs_userId s r m) h
  | broadcastAll m => simp [allowC4] at hallow
  | broadcastUser u m => simp [allowC4] at hallow
  | keepalive => simp [allowC4] at hallow

theorem applyOps_pres4 : ∀ (ops : List HubOp) (s : HubState), UCwf s →
    SeqOK allowC4 s ops → UCwf (applyOps s ops)
  | [], _, h, _ => h
  | op :: rest, s, h, hs =>
    applyOps_pres4 rest (applyOp s op) (applyOp_pres4 s op h hs.1 hs.2.1) hs.2.2

/-- C4 (amended): the user-index biconditional (in the index iff registered
with a non-empty user id) holds after any run of Register (fresh),
Unregister, JoinRoom, LeaveRoom and BroadcastRoom operations; the
BroadcastAll/keepalive and BroadcastUser eviction paths are excluded (see
the counterexample). -/
theorem C4_amended_userindex (s : HubState) (ops : List HubOp)
    (h : UCwf s) (hs : SeqOK allowC4 s ops) :
    UCwf (applyOps s ops) ∧ Inv4 (applyOps s ops) :=
  ⟨applyOps_pres4 ops s h hs,
   UCwf_imp_Inv4 (applyOps s ops) (applyOps_pres4 ops s h hs)⟩

/-- C4 witness on a run with registrations, joins, a room broadcast and
unregistrations. -/
theorem C4_amended_userindex_witness :
    Inv4 (applyOps hubA [HubOp.register 0, HubOp.register 1, HubOp.join 0 "g1",
      HubOp.broadcastRoom "g1" (Msg.payload "m1"), HubOp.leave 0 "g1",
      HubOp.unregister 0]) :=
  (C4_amended_userindex hubA [HubOp.register 0, HubOp.register 1, HubOp.join 0 "g1",
      HubOp.broadcastRoom "g1" (Msg.payload "m1"), HubOp.leave 0 "g1",
      HubOp.unregister 0]
    ⟨List.nodup_nil, List.nodup_nil, fun p hp => absurd hp (List.not_mem_nil p),
      fun c hc => absurd hc (List.not_mem_nil c)⟩
    (by decide)).2
